import Mathlib

/-!
Verification development for the backtest-optimization reference implementation
(`reference_impl/core_engine.py`, `core_engine_vectorized.py`,
`signal_combination.py`, `metrics.py`, `optimization_kernel.py`).

The Python code operates on float32 numpy arrays; this development embeds it
with exact rational arithmetic (`ℚ`), the standard idealization: all the
concrete scenarios exercised here stay on exactly representable values.
Matrices are lists of rows; `np.floor` is `Int.floor` (round toward -∞).
`ValueError` exceptions are modelled by `Except String`, with short tags as
messages.
-/

namespace Backtest

/-- Exact-value `np.floor`: round a rational toward negative infinity,
returned as a rational (numpy keeps the float type). -/
def qfloor (x : ℚ) : ℚ := (⌊x⌋ : ℚ)

/-- Equality of `Except` values is decidable (needed to evaluate concrete
runs of the fallible simulator). -/
instance {ε α : Type} [DecidableEq ε] [DecidableEq α] : DecidableEq (Except ε α) := fun x y =>
  match x, y with
  | .error a, .error b =>
    if h : a = b then isTrue (by rw [h])
    else isFalse (fun hh => by cases hh; exact h rfl)
  | .ok a, .ok b =>
    if h : a = b then isTrue (by rw [h])
    else isFalse (fun hh => by cases hh; exact h rfl)
  | .error _, .ok _ => isFalse (fun hh => by cases hh)
  | .ok _, .error _ => isFalse (fun hh => by cases hh)

/-- The keyword arguments of `run_backtest_python` /
`run_multi_weight_vectorized` bundled into one record.  The Python defaults
are `initial_cash=1000000`, `trade_mode="portfolio_pct"`,
`max_allocation_pct=0.5`, `fixed_cash_amount=100000`, `position_size=100`. -/
structure BTConfig where
  initial_cash : ℚ
  trade_mode : String
  max_allocation_pct : ℚ
  fixed_cash_amount : ℚ
  position_size : ℚ

/-- The four mode tags recognized by the dispatch in
`core_engine.py` lines 85-109. -/
def recognizedMode (m : String) : Prop :=
  m = "cash_all" ∨ m = "portfolio_pct" ∨ m = "fixed_cash" ∨ m = "fixed"

instance (m : String) : Decidable (recognizedMode m) := by
  unfold recognizedMode; infer_instance

/-- Mode-dispatched raw buy quantity, `core_engine.py` lines 82-109:
`cash_all` buys `floor(cash/price)`; `portfolio_pct` caps the position at a
fraction of portfolio value; `fixed_cash` buys `floor(fixed_cash_amount/price)`;
`fixed` buys `position_size`; any other tag raises `ValueError`. -/
def buyQty (cfg : BTConfig) (price cash qty : ℚ) : Except String ℚ :=
  if cfg.trade_mode = "cash_all" then
    .ok (qfloor (cash / price))
  else if cfg.trade_mode = "portfolio_pct" then
    let portfolio_val := cash + qty * price
    .ok (max 0 (min (qfloor (portfolio_val * cfg.max_allocation_pct / price) - qty)
                    (qfloor (cash / price))))
  else if cfg.trade_mode = "fixed_cash" then
    .ok (qfloor (cfg.fixed_cash_amount / price))
  else if cfg.trade_mode = "fixed" then
    .ok cfg.position_size
  else
    .error "UnsupportedMode"

/-- One `(t, w)` cell of the reference loop, `core_engine.py` lines 79-124:
on a buy signal (`change > 0`) the mode quantity is computed, capped by
`floor(cash/price)`, and cash/quantity updated; on a sell signal
(`change < 0`) the whole previous holding is liquidated; otherwise the state
is carried forward. -/
def stepCol (cfg : BTConfig) (price change cash qty : ℚ) : Except String (ℚ × ℚ) :=
  if 0 < change then
    match buyQty cfg price cash qty with
    | .error e => .error e
    | .ok b0 =>
      let b := min b0 (qfloor (cash / price))
      .ok (cash - b * price, qty + b)
  else if change < 0 then
    .ok (cash + qty * price, 0)
  else
    .ok (cash, qty)

/-- The inner `for w` loop of `run_backtest_python`: columns are processed
left to right, and a raised `ValueError` aborts the whole call. -/
def stepRow (cfg : BTConfig) (price : ℚ) :
    List ℚ → List ℚ → List ℚ → Except String (List ℚ × List ℚ)
  | ch :: chs, c :: cs, q :: qs =>
    match stepCol cfg price ch c q with
    | .error e => .error e
    | .ok (c', q') =>
      match stepRow cfg price chs cs qs with
      | .error e => .error e
      | .ok (cs', qs') => .ok (c' :: cs', q' :: qs')
  | _, _, _ => .ok ([], [])

/-- The outer `for t in range(1, n_timesteps)` loop of `run_backtest_python`:
each step inherits the previous cash/quantity rows, applies `stepRow`, then
records `portfolio_values[t] = cash[t] + quantity[t] * price` with the
current step's price. Produces, per step, the `(value, cash, quantity)`
rows. -/
def scanSteps (cfg : BTConfig) :
    List (ℚ × List ℚ) → List ℚ → List ℚ →
    Except String (List (List ℚ × List ℚ × List ℚ))
  | [], _, _ => .ok []
  | (price, chRow) :: rest, cash, qty =>
    match stepRow cfg price chRow cash qty with
    | .error e => .error e
    | .ok (cash', qty') =>
      match scanSteps cfg rest cash' qty' with
      | .error e => .error e
      | .ok tail =>
        .ok ((List.zipWith (fun c q => c + q * price) cash' qty', cash', qty') :: tail)

/-- `np.diff(np.vstack([zeros(1, W), position_matrix]), axis=0)`:
row `0` is `position_matrix[0]` itself, row `t` is
`position_matrix[t] - position_matrix[t-1]`. -/
def positionChanges (W : ℕ) (pos : List (List ℚ)) : List (List ℚ) :=
  List.zipWith (fun cur prev => List.zipWith (fun c p => c - p) cur prev)
    pos (List.replicate W (0 : ℚ) :: pos)

/-- Loop-based reference engine `run_backtest_python`
(`core_engine.py` lines 10-129).  Validates only the row count of the
position matrix against the price-series length; row `0` is initialized to
`(initial_cash, initial_cash, 0)`; rows `t ≥ 1` come from the scan.
An empty price series raises (numpy `IndexError` on `cash_matrix[0, :]`).
Returns `(portfolio_values, cash_matrix, quantity_matrix)`. -/
def run_backtest_python (prices : List ℚ) (pos : List (List ℚ)) (cfg : BTConfig) :
    Except String (List (List ℚ) × List (List ℚ) × List (List ℚ)) :=
  if pos.length = prices.length then
    match prices with
    | [] => .error "IndexError"
    | _ :: prest =>
      let W := (pos.headD []).length
      let cash0 := List.replicate W cfg.initial_cash
      let qty0 := List.replicate W (0 : ℚ)
      let pv0 := List.replicate W cfg.initial_cash
      match scanSteps cfg (prest.zip (positionChanges W pos).tail) cash0 qty0 with
      | .error e => .error e
      | .ok rows =>
        .ok (pv0 :: rows.map (fun r => r.1),
             cash0 :: rows.map (fun r => r.2.1),
             qty0 :: rows.map (fun r => r.2.2))
  else .error "ShapeMismatch"

/-- The configuration of Scenario A: `cash_all`, `initial_cash = 1000`,
remaining parameters at the Python defaults. -/
def cfgScenarioA : BTConfig :=
  { initial_cash := 1000, trade_mode := "cash_all", max_allocation_pct := 1/2,
    fixed_cash_amount := 100000, position_size := 100 }

/-! ### Total core of the buy/sell recurrence

For every recognized mode the scan never raises, so it coincides with the
following total functions; the vectorized engine
(`core_engine_vectorized.py`), whose `else` branch silently falls back to
fixed sizing instead of raising, coincides with them for every mode tag.
These are proof-side mirrors, not source functions. -/

/-- Total mode dispatch: as `buyQty` on the four recognized tags, and the
silent `position_size` fallback of `core_engine_vectorized.py` line 107
otherwise. -/
def buyQtyT (cfg : BTConfig) (price cash qty : ℚ) : ℚ :=
  if cfg.trade_mode = "cash_all" then
    qfloor (cash / price)
  else if cfg.trade_mode = "portfolio_pct" then
    let portfolio_val := cash + qty * price
    max 0 (min (qfloor (portfolio_val * cfg.max_allocation_pct / price) - qty)
               (qfloor (cash / price)))
  else if cfg.trade_mode = "fixed_cash" then
    qfloor (cfg.fixed_cash_amount / price)
  else
    cfg.position_size

/-- Total version of `stepCol`. -/
def stepColT (cfg : BTConfig) (price change cash qty : ℚ) : ℚ × ℚ :=
  if 0 < change then
    let b := min (buyQtyT cfg price cash qty) (qfloor (cash / price))
    (cash - b * price, qty + b)
  else if change < 0 then
    (cash + qty * price, 0)
  else
    (cash, qty)

/-- Total version of `stepRow`. -/
def stepRowT (cfg : BTConfig) (price : ℚ) :
    List ℚ → List ℚ → List ℚ → List ℚ × List ℚ
  | ch :: chs, c :: cs, q :: qs =>
    let hd := stepColT cfg price ch c q
    let tl := stepRowT cfg price chs cs qs
    (hd.1 :: tl.1, hd.2 :: tl.2)
  | _, _, _ => ([], [])

/-- Total version of `scanSteps`. -/
def scanStepsT (cfg : BTConfig) :
    List (ℚ × List ℚ) → List ℚ → List ℚ → List (List ℚ × List ℚ × List ℚ)
  | [], _, _ => []
  | (price, chRow) :: rest, cash, qty =>
    let s := stepRowT cfg price chRow cash qty
    (List.zipWith (fun c q => c + q * price) s.1 s.2, s.1, s.2) ::
      scanStepsT cfg rest s.1 s.2

/-! ### Vectorized engine, `core_engine_vectorized.py` -/

/-- Three-list zip, for the masked numpy row updates. -/
def zipWith3 (f : α → β → γ → δ) : List α → List β → List γ → List δ
  | a :: as, b :: bs, c :: cs => f a b c :: zipWith3 f as bs cs
  | _, _, _ => []

/-- Mode-dispatched raw buy row of `run_multi_weight_vectorized`
(lines 84-107), computed for every column from the inherited cash/quantity
rows; an unrecognized tag silently falls back to fixed sizing. -/
def vecBuyRaw (cfg : BTConfig) (W : ℕ) (price : ℚ) (cash qty : List ℚ) : List ℚ :=
  if cfg.trade_mode = "fixed" then
    List.replicate W cfg.position_size
  else if cfg.trade_mode = "cash_all" then
    cash.map (fun c => qfloor (c / price))
  else if cfg.trade_mode = "portfolio_pct" then
    List.zipWith (fun c q =>
      max 0 (min (qfloor ((c + q * price) * cfg.max_allocation_pct / price) - q)
                 (qfloor (c / price)))) cash qty
  else if cfg.trade_mode = "fixed_cash" then
    List.replicate W (qfloor (cfg.fixed_cash_amount / price))
  else
    List.replicate W cfg.position_size

/-- The buy block of `run_multi_weight_vectorized` (lines 82-119): raw
mode quantities for every column, zeroed outside the buy mask, capped by
`floor(cash/price)`, then applied to the buy columns only. -/
def vecBuyBlock (cfg : BTConfig) (W : ℕ) (price : ℚ) (ch cash qty : List ℚ) :
    List ℚ × List ℚ :=
  let raw := vecBuyRaw cfg W price cash qty
  let masked := List.zipWith (fun b c => if 0 < c then b else 0) raw ch
  let capped := List.zipWith (fun b c => min b (qfloor (c / price))) masked cash
  (zipWith3 (fun c chv b => if 0 < chv then c - b * price else c) cash ch capped,
   zipWith3 (fun q chv b => if 0 < chv then q + b else q) qty ch capped)

/-- The sell block of `run_multi_weight_vectorized` (lines 121-128): sell
columns receive `qtyPrev * price` in cash (quantities of the previous step)
and their quantity is zeroed. -/
def vecSellBlock (price : ℚ) (ch qtyPrev cash qty : List ℚ) :
    List ℚ × List ℚ :=
  (zipWith3 (fun c chv qprev => if chv < 0 then c + qprev * price else c) cash ch qtyPrev,
   List.zipWith (fun q chv => if chv < 0 then 0 else q) qty ch)

/-- One time step of `run_multi_weight_vectorized` (lines 74-128): if the
change row is all zero nothing happens; otherwise the buy block updates buy
columns, then the sell block liquidates sell columns using the previous
step's quantities. -/
def vecStep (cfg : BTConfig) (W : ℕ) (price : ℚ) (ch cash qty : List ℚ) :
    List ℚ × List ℚ :=
  if ch.any (fun c => decide (0 < c)) || ch.any (fun c => decide (c < 0)) then
    let step1 :=
      if ch.any (fun c => decide (0 < c)) then vecBuyBlock cfg W price ch cash qty
      else (cash, qty)
    if ch.any (fun c => decide (c < 0)) then
      vecSellBlock price ch qty step1.1 step1.2
    else step1
  else (cash, qty)

/-- The `for idx in range(1, n_timestamps)` loop of
`run_multi_weight_vectorized`, recording per step the
`(value, cash, quantity)` rows. -/
def vecScan (cfg : BTConfig) (W : ℕ) :
    List (ℚ × List ℚ) → List ℚ → List ℚ → List (List ℚ × List ℚ × List ℚ)
  | [], _, _ => []
  | (price, chRow) :: rest, cash, qty =>
    let s := vecStep cfg W price chRow cash qty
    (List.zipWith (fun c q => c + q * price) s.1 s.2, s.1, s.2) ::
      vecScan cfg W rest s.1 s.2

/-- Batched engine `run_multi_weight_vectorized`
(`core_engine_vectorized.py` lines 11-133).  Same shape check, row-0
initialization, change matrix and output assembly as the loop reference;
the per-step work is the masked row update `vecStep`. -/
def run_multi_weight_vectorized (prices : List ℚ) (pos : List (List ℚ)) (cfg : BTConfig) :
    Except String (List (List ℚ) × List (List ℚ) × List (List ℚ)) :=
  if pos.length = prices.length then
    match prices with
    | [] => .error "IndexError"
    | _ :: prest =>
      let W := (pos.headD []).length
      let cash0 := List.replicate W cfg.initial_cash
      let qty0 := List.replicate W (0 : ℚ)
      let pv0 := List.replicate W cfg.initial_cash
      let rows := vecScan cfg W (prest.zip (positionChanges W pos).tail) cash0 qty0
      .ok (pv0 :: rows.map (fun r => r.1),
           cash0 :: rows.map (fun r => r.2.1),
           qty0 :: rows.map (fun r => r.2.2))
  else .error "ShapeMismatch"

/-- One time step of `run_backtest_vectorized` (`core_engine.py` lines
158-180): buy columns spend all cash at the exact fractional quantity
`cash / price` with no flooring; sell columns then liquidate the previous
step's quantity. -/
def fracStep (price : ℚ) (ch cash qty : List ℚ) : List ℚ × List ℚ :=
  let step1 :=
    if ch.any (fun c => decide (0 < c)) then
      (List.zipWith (fun c chv => if 0 < chv then c - (c / price) * price else c) cash ch,
       zipWith3 (fun q chv c => if 0 < chv then q + c / price else q) qty ch cash)
    else (cash, qty)
  if ch.any (fun c => decide (c < 0)) then
    (zipWith3 (fun c chv qprev => if chv < 0 then c + qprev * price else c) step1.1 ch qty,
     List.zipWith (fun q chv => if chv < 0 then 0 else q) step1.2 ch)
  else step1

/-- The time loop of `run_backtest_vectorized`. -/
def fracScan : List (ℚ × List ℚ) → List ℚ → List ℚ → List (List ℚ × List ℚ × List ℚ)
  | [], _, _ => []
  | (price, chRow) :: rest, cash, qty =>
    let s := fracStep price chRow cash qty
    (List.zipWith (fun c q => c + q * price) s.1 s.2, s.1, s.2) ::
      fracScan rest s.1 s.2

/-- Simplified vectorized engine `run_backtest_vectorized`
(`core_engine.py` lines 132-182).  No shape check and no mode dispatch:
the `trade_mode` argument is accepted but never read, and buys are
fractional (`cash / price`, not floored).  Documented as supporting only
`cash_all`.  An empty price series raises (numpy `IndexError`). -/
def run_backtest_vectorized (prices : List ℚ) (pos : List (List ℚ))
    (initial_cash : ℚ) (trade_mode : String := "cash_all") :
    Except String (List (List ℚ) × List (List ℚ) × List (List ℚ)) :=
  match prices with
  | [] => .error "IndexError"
  | _ :: prest =>
    let W := (pos.headD []).length
    let cash0 := List.replicate W initial_cash
    let qty0 := List.replicate W (0 : ℚ)
    let pv0 := List.replicate W initial_cash
    let rows := fracScan (prest.zip (positionChanges W pos).tail) cash0 qty0
    .ok (pv0 :: rows.map (fun r => r.1),
         cash0 :: rows.map (fun r => r.2.1),
         qty0 :: rows.map (fun r => r.2.2))

/-! ### Signal combination, `signal_combination.py` -/

/-- `np.dot` of two vectors (truncating to the shorter, as the embeddings
are only applied to well-shaped data). -/
def npDot (xs ys : List ℚ) : ℚ := (List.zipWith (fun a b => a * b) xs ys).sum

/-- Column `j` of a row-major matrix. -/
def colOf (j : ℕ) (m : List (List ℚ)) : List ℚ := m.map (fun r => r.getD j 0)

/-- `np.dot(A, B)` for row-major rectangular matrices:
`(A·B)[t][j] = Σ_i A[t][i]·B[i][j]`. -/
def matMul (A B : List (List ℚ)) : List (List ℚ) :=
  A.map (fun row => (List.range (B.headD []).length).map (fun j => npDot row (colOf j B)))

/-- One thresholded entry of the long/short matrix
(`signal_combination.py` lines 52-54): the matrix starts at `0`, entries
with `combined > threshold` are overwritten with `1`, then entries with
`combined < -threshold` are overwritten with `-1` (so the `-1` write wins
where both apply). -/
def thresholdEntry (threshold c : ℚ) : ℚ :=
  if c < -threshold then -1 else if threshold < c then 1 else 0

/-- `process_signals_python` (`signal_combination.py` lines 10-60):
checks the inner dimension, forms `combined = signal · weights`, thresholds
into the long/short matrix, and lags it one step into the position matrix
(`position[0] = 0`, `position[1:] = long_short[:-1]`). -/
def process_signals_python (signal_matrix weights_matrix : List (List ℚ))
    (threshold : ℚ) :
    Except String (List (List ℚ) × List (List ℚ) × List (List ℚ)) :=
  if (signal_matrix.headD []).length = weights_matrix.length then
    let combined := matMul signal_matrix weights_matrix
    let long_short := combined.map (fun row => row.map (thresholdEntry threshold))
    let W := (weights_matrix.headD []).length
    let position :=
      if long_short.isEmpty then []
      else List.replicate W (0 : ℚ) :: long_short.dropLast
    .ok (combined, long_short, position)
  else .error "DimensionMismatch"

/-! ### Metrics, `metrics.py`

The float functions are embedded with exact arithmetic; `np.sqrt` becomes
`Real.sqrt`, so the Sharpe ratio is real-valued.  `nan_to_num` is modelled
where a zero denominator can arise: in `calculate_returns_python` a zero
previous value makes the float quotient NaN/±Inf, which `nan_to_num` sends
to `0.0`; in the Sharpe quotient the denominator `std + 1e-8` is strictly
positive, so in exact arithmetic the replacement only matters for the
`n_timesteps ≤ 2` case, where numpy's mean/std of a too-short sample is NaN
and the final result is `0.0`. -/

/-- `calculate_returns_python` (`metrics.py` lines 7-27):
`returns[t] = portfolio[t+1]/portfolio[t] - 1`, with NaN/±Inf from a zero
denominator replaced by `0.0`. -/
def calculate_returns_python (portfolio_values : List (List ℚ)) : List (List ℚ) :=
  List.zipWith (fun nxt cur =>
      List.zipWith (fun n c => if c = 0 then 0 else n / c - 1) nxt cur)
    portfolio_values.tail portfolio_values

/-- Sharpe ratio of one returns column (`metrics.py` lines 50-57):
`mean / (std_sample + 1e-8) · sqrt(annualization_factor)`, sample standard
deviation with divisor `n - 1`.  For `n ≤ 1` numpy's mean/std emit NaN and
`nan_to_num` turns the score into `0.0`. -/
noncomputable def sharpeOfColumn (r : List ℚ) (annualization_factor : ℚ) : ℝ :=
  if r.length ≤ 1 then 0
  else
    let m : ℚ := r.sum / r.length
    let v : ℚ := (r.map (fun x => (x - m) ^ 2)).sum / ((r.length : ℚ) - 1)
    ((m : ℝ) / (Real.sqrt (v : ℝ) + 1 / 10 ^ 8)) * Real.sqrt (annualization_factor : ℝ)

/-- `calculate_sharpe_ratio_python` (`metrics.py` lines 30-59): one Sharpe
ratio per column of the portfolio-value matrix; default
`annualization_factor = 252`. -/
noncomputable def calculate_sharpe_ratio_python (portfolio_values : List (List ℚ))
    (annualization_factor : ℚ := 252) : List ℝ :=
  let returns := calculate_returns_python portfolio_values
  (List.range (portfolio_values.headD []).length).map
    (fun w => sharpeOfColumn (colOf w returns) annualization_factor)

/-! ### Batch evaluator, `optimization_kernel.py` -/

/-- `evaluate_weights_batch_python` (`optimization_kernel.py` lines 26-76):
signal combination, then the loop-based backtest, then per-column Sharpe
ratios.  `position_size` is not forwarded (the engine default `100` always
applies) and the Sharpe annualization factor is the default `252`. -/
noncomputable def evaluate_weights_batch_python
    (weights_batch signal_matrix : List (List ℚ)) (prices : List ℚ)
    (threshold initial_cash : ℚ) (trade_mode : String)
    (max_allocation_pct fixed_cash_amount : ℚ) : Except String (List ℝ) :=
  match process_signals_python signal_matrix weights_batch threshold with
  | .error e => .error e
  | .ok (_, _, position_matrix) =>
    match run_backtest_python prices position_matrix
        { initial_cash := initial_cash, trade_mode := trade_mode,
          max_allocation_pct := max_allocation_pct,
          fixed_cash_amount := fixed_cash_amount, position_size := 100 } with
    | .error e => .error e
    | .ok (portfolio_values, _, _) =>
      .ok (calculate_sharpe_ratio_python portfolio_values 252)

/-- `evaluate_single_weight_python` (`optimization_kernel.py` lines
79-103): reshapes the weight vector into one column and evaluates the
batch, forwarding only `threshold`, `initial_cash` and `trade_mode` — the
batch call therefore runs with the default `max_allocation_pct = 0.5` and
`fixed_cash_amount = 100000` — and returns `scores[0]`. -/
noncomputable def evaluate_single_weight_python
    (weights : List ℚ) (signal_matrix : List (List ℚ)) (prices : List ℚ)
    (threshold initial_cash : ℚ) (trade_mode : String) : Except String ℝ :=
  match evaluate_weights_batch_python (weights.map (fun x => [x])) signal_matrix
      prices threshold initial_cash trade_mode (1 / 2) 100000 with
  | .error e => .error e
  | .ok scores => .ok (scores.getD 0 0)

/-! ### Predicates used by the theorems -/

/-- A position matrix contains a buy transition when some consecutive rows
`t-1, t` (`t ≥ 1`) have a strictly increasing entry; those are exactly the
steps whose change is positive, the only steps entering the mode
dispatch. -/
def hasBuyTransition (pos : List (List ℚ)) : Bool :=
  (List.zipWith (fun prev cur =>
      (List.zipWith (fun p c => decide (p < c)) prev cur).any id)
    pos pos.tail).any id

/-- All rows of a matrix have length `W`. -/
def rectangular (W : ℕ) (m : List (List ℚ)) : Prop := ∀ r ∈ m, r.length = W

instance (W : ℕ) (m : List (List ℚ)) : Decidable (rectangular W m) := by
  unfold rectangular; infer_instance

/-- A configuration carrying a mode tag none of the engines recognize. -/
def cfgBogusMode : BTConfig :=
  { initial_cash := 1000, trade_mode := "margin", max_allocation_pct := 1/2,
    fixed_cash_amount := 100000, position_size := 100 }

end Backtest

namespace Backtest

/-- C1: Scenario A. With T=3, prices=[100,110,90], one column,
executable position [0,1,0], mode `cash_all`, initial cash 1000, the
reference simulator produces at t=1 a buy of `floor(1000/110)=9` units
(cash 10, quantity 9, value 1000), and at t=2 a full liquidation at price 90
(cash 820, quantity 0, value 820). -/
theorem scenarioA_run :
    run_backtest_python [100, 110, 90] [[0], [1], [0]] cfgScenarioA =
      .ok ([[1000], [1000], [820]], [[1000], [10], [820]], [[0], [9], [0]]) := by
  norm_num [run_backtest_python, scanSteps, stepRow, stepCol, buyQty, qfloor,
    positionChanges, cfgScenarioA, List.replicate, List.zip, List.zipWith]

/-! ### List helpers -/

theorem getD_replicate (n i : ℕ) (a : ℚ) : (List.replicate n a).getD i a = a := by
  induction n generalizing i with
  | zero => simp [List.getD_nil]
  | succ n ih =>
    cases i with
    | zero => simp
    | succ i => simpa using ih i

theorem dropLast_getD (l : List (List ℚ)) (i : ℕ) (h : i < l.length - 1) :
    l.dropLast.getD i [] = l.getD i [] := by
  have h1 : i < l.dropLast.length := by simpa using h
  have h2 : i < l.length := by omega
  rw [List.getD_eq_getElem _ _ h1, List.getD_eq_getElem _ _ h2]
  exact List.getElem_dropLast l i h1

theorem zipWith_getD (f : ℚ → ℚ → ℚ) (hf : f 0 0 = 0) (l1 l2 : List ℚ)
    (h : l1.length = l2.length) (i : ℕ) :
    (List.zipWith f l1 l2).getD i 0 = f (l1.getD i 0) (l2.getD i 0) := by
  induction l1 generalizing l2 i with
  | nil =>
    cases l2 with
    | nil => simpa [List.getD_nil] using hf.symm
    | cons b bs => simp at h
  | cons a as ih =>
    cases l2 with
    | nil => simp at h
    | cons b bs =>
      cases i with
      | zero => simp
      | succ i => simpa using ih bs (by simpa using h) i

/-! ### C7: threshold semantics of the signal combiner -/

/-- C7: for every combined value `c` and every threshold `≥ 0`, the
position state is `+1` iff `c > threshold`, `-1` iff `c < -threshold`, and
`0` otherwise; in particular a boundary value `c = ±threshold` resolves to
`0` (strict inequalities only). -/
theorem thresholdEntry_spec (threshold c : ℚ) (h : 0 ≤ threshold) :
    thresholdEntry threshold c =
      (if threshold < c then 1 else if c < -threshold then -1 else 0) ∧
    ((c = threshold ∨ c = -threshold) → thresholdEntry threshold c = 0) := by
  constructor
  · unfold thresholdEntry
    split_ifs <;> first | rfl | linarith
  · rintro (rfl | rfl) <;>
      · unfold thresholdEntry
        split_ifs <;> first | rfl | linarith

/-- Witness for C7 at Scenario C: threshold `0.5`, combined value `0.5`
(the boundary) resolves to the flat state `0`. -/
theorem thresholdEntry_spec_witness :
    (0 : ℚ) ≤ 1 / 2 ∧ thresholdEntry (1 / 2) (1 / 2) = 0 :=
  ⟨by norm_num, (thresholdEntry_spec (1 / 2) (1 / 2) (by norm_num)).2 (Or.inl rfl)⟩

/-! ### C6: one-step execution lag -/

/-- C6: whenever the signal combiner succeeds, the executable position
matrix has a zero first row and every later row `t ≥ 1` equals row `t-1`
of the thresholded position-state matrix. -/
theorem process_signals_lag (signal_matrix weights_matrix : List (List ℚ))
    (threshold : ℚ) (combined ls pos : List (List ℚ))
    (h : process_signals_python signal_matrix weights_matrix threshold =
      .ok (combined, ls, pos)) :
    (∀ w, (pos.headD []).getD w 0 = 0) ∧
    (∀ t w, 1 ≤ t → t < signal_matrix.length →
      (pos.getD t []).getD w 0 = (ls.getD (t - 1) []).getD w 0) := by
  unfold process_signals_python at h
  split at h
  case isFalse => exact absurd h (by simp)
  case isTrue hdim =>
    simp only [Except.ok.injEq, Prod.mk.injEq] at h
    obtain ⟨hc, hl, hp⟩ := h
    subst hc hl hp
    have hlen : (List.map (fun row => List.map (thresholdEntry threshold) row)
        (matMul signal_matrix weights_matrix)).length = signal_matrix.length := by
      simp [matMul]
    constructor
    · intro w
      split_ifs with he
      · simp [List.getD_nil]
      · simpa using getD_replicate _ w 0
    · intro t w h1 h2
      split_ifs with he
      · rw [List.isEmpty_iff] at he
        rw [he] at hlen
        simp at hlen
        omega
      · obtain ⟨t', rfl⟩ : ∃ t', t = t' + 1 := ⟨t - 1, by omega⟩
        simp only [List.getD_cons_succ, Nat.add_sub_cancel]
        rw [dropLast_getD _ t' (by omega)]

/-- Witness for C6: a concrete two-step run where the signal fires at
`t = 0` and the executable position picks it up at `t = 1`. -/
theorem process_signals_lag_witness :
    process_signals_python [[1], [0]] [[1]] (1 / 2) =
      .ok ([[1], [0]], [[1], [0]], [[0], [1]]) ∧
    ((∀ w, (([[0], [1]] : List (List ℚ)).headD []).getD w 0 = 0) ∧
     (∀ t w, 1 ≤ t → t < ([[1], [0]] : List (List ℚ)).length →
       (([[0], [1]] : List (List ℚ)).getD t []).getD w 0 =
         (([[1], [0]] : List (List ℚ)).getD (t - 1) []).getD w 0)) := by
  have h : process_signals_python [[1], [0]] [[1]] (1 / 2) =
      .ok ([[1], [0]], [[1], [0]], [[0], [1]]) := by
    norm_num [process_signals_python, matMul, npDot, colOf, thresholdEntry,
      List.range_succ]
  exact ⟨h, process_signals_lag _ _ _ _ _ _ h⟩

/-! ### C9: a non-positive price is not rejected -/

/-- C9 counterexample: a price series containing the non-positive price
`-5` is not rejected — the reference simulator runs to completion. -/
theorem run_nonpositive_price_accepted :
    (run_backtest_python [100, -5] [[0], [1]] cfgScenarioA).isOk = true := by
  norm_num [run_backtest_python, scanSteps, stepRow, stepCol, buyQty, qfloor,
    positionChanges, cfgScenarioA, List.replicate, List.zip, List.zipWith,
    Except.isOk, Except.toBool]

/-- C9 (amended): the reference simulator performs no price validation;
the scan runs on a non-positive price and the corruption propagates into
the state — here `floor(1000 / -5) = -200` is "bought", leaving a negative
quantity of `-200` units. -/
theorem run_nonpositive_price_propagates :
    run_backtest_python [100, -5] [[0], [1]] cfgScenarioA =
      .ok ([[1000], [1000]], [[1000], [0]], [[0], [-200]]) := by
  norm_num [run_backtest_python, scanSteps, stepRow, stepCol, buyQty, qfloor,
    positionChanges, cfgScenarioA, List.replicate, List.zip, List.zipWith]

/-! ### C8: the unsupported-mode error is raised lazily -/

theorem buyQty_unrecognized (cfg : BTConfig) (hm : ¬ recognizedMode cfg.trade_mode)
    (price cash qty : ℚ) : buyQty cfg price cash qty = .error "UnsupportedMode" := by
  unfold recognizedMode at hm
  push_neg at hm
  unfold buyQty
  split_ifs with h1 h2 h3 h4 <;> tauto

theorem stepCol_ok_of_nonpos (cfg : BTConfig) (price ch cash qty : ℚ)
    (hc : ¬ 0 < ch) : ∃ out, stepCol cfg price ch cash qty = .ok out := by
  unfold stepCol
  rw [if_neg hc]
  split_ifs <;> exact ⟨_, rfl⟩

theorem stepRow_isOk_unrecognized (cfg : BTConfig) (price : ℚ)
    (hm : ¬ recognizedMode cfg.trade_mode) :
    ∀ (ch cash qty : List ℚ), ch.length ≤ cash.length → ch.length ≤ qty.length →
      (stepRow cfg price ch cash qty).isOk = !(ch.any (fun c => decide (0 < c)))
  | [], cash, qty, _, _ => by
    cases cash <;> cases qty <;> simp [stepRow, Except.isOk, Except.toBool]
  | c :: chs, [], qty, h1, _ => by simp at h1
  | c :: chs, c0 :: cs, [], _, h2 => by simp at h2
  | c :: chs, c0 :: cs, q0 :: qs, h1, h2 => by
    by_cases hc : 0 < c
    · simp [stepRow, stepCol, if_pos hc, buyQty_unrecognized cfg hm, Except.isOk,
        Except.toBool, hc]
    · obtain ⟨out, hout⟩ := stepCol_ok_of_nonpos cfg price c c0 q0 hc
      have ih := stepRow_isOk_unrecognized cfg price hm chs cs qs
        (by simpa using h1) (by simpa using h2)
      simp only [stepRow, hout, List.any_cons, decide_eq_false hc, Bool.false_or]
      cases hrec : stepRow cfg price chs cs qs with
      | error e => rw [hrec] at ih; simpa [Except.isOk, Except.toBool] using ih
      | ok out2 => rw [hrec] at ih; simpa [Except.isOk, Except.toBool] using ih

theorem stepRow_ok_lengths (cfg : BTConfig) (price : ℚ) :
    ∀ (ch cash qty cs' qs' : List ℚ), ch.length = cash.length →
      cash.length = qty.length →
      stepRow cfg price ch cash qty = .ok (cs', qs') →
      cs'.length = cash.length ∧ qs'.length = cash.length
  | [], [], [], cs', qs', _, _, h => by
    simp only [stepRow, Except.ok.injEq, Prod.mk.injEq] at h
    obtain ⟨h1, h2⟩ := h
    simp [← h1, ← h2]
  | [], c0 :: cs, qty, cs', qs', h1, _, _ => by simp at h1
  | c :: chs, [], qty, cs', qs', h1, _, _ => by simp at h1
  | c :: chs, c0 :: cs, [], cs', qs', h1, h2, _ => by simp at h2
  | c :: chs, c0 :: cs, q0 :: qs, cs', qs', h1, h2, h => by
    revert h
    simp only [stepRow]
    cases hcol : stepCol cfg price c c0 q0 with
    | error e => intro h; exact absurd h (by simp)
    | ok hd =>
      cases hrec : stepRow cfg price chs cs qs with
      | error e => intro h; exact absurd h (by simp)
      | ok tl =>
        intro h
        simp only [Except.ok.injEq, Prod.mk.injEq] at h
        obtain ⟨h3, h4⟩ := h
        have := stepRow_ok_lengths cfg price chs cs qs tl.1 tl.2
          (by simpa using h1) (by simpa using h2) (by rw [hrec])
        simp only [← h3, ← h4, List.length_cons]
        omega

theorem scanSteps_isOk_unrecognized (cfg : BTConfig)
    (hm : ¬ recognizedMode cfg.trade_mode) (W : ℕ) :
    ∀ (steps : List (ℚ × List ℚ)) (cash qty : List ℚ),
      cash.length = W → qty.length = W → (∀ s ∈ steps, s.2.length = W) →
      (scanSteps cfg steps cash qty).isOk =
        !(steps.any (fun s => s.2.any (fun c => decide (0 < c))))
  | [], cash, qty, _, _, _ => by simp [scanSteps, Except.isOk, Except.toBool]
  | (price, ch) :: rest, cash, qty, h1, h2, h3 => by
    have hch : ch.length = W := h3 (price, ch) (List.mem_cons_self _ _)
    have hrowOk := stepRow_isOk_unrecognized cfg price hm ch cash qty
      (by omega) (by omega)
    by_cases hb : ch.any (fun c => decide (0 < c))
    · rw [hb] at hrowOk
      cases hrow : stepRow cfg price ch cash qty with
      | error e => simp [scanSteps, hrow, Except.isOk, Except.toBool, hb]
      | ok out => rw [hrow] at hrowOk; simp [Except.isOk, Except.toBool] at hrowOk
    · rw [Bool.not_eq_true] at hb
      rw [hb] at hrowOk
      cases hrow : stepRow cfg price ch cash qty with
      | error e => rw [hrow] at hrowOk; simp [Except.isOk, Except.toBool] at hrowOk
      | ok out =>
        obtain ⟨cs', qs'⟩ := out
        have hlen := stepRow_ok_lengths cfg price ch cash qty cs' qs'
          (by omega) (by omega) hrow
        have ih := scanSteps_isOk_unrecognized cfg hm W rest cs' qs'
          (by omega) (by omega) (fun s hs => h3 s (List.mem_cons_of_mem _ hs))
        simp only [scanSteps, hrow, List.any_cons, hb, Bool.false_or]
        cases hrest : scanSteps cfg rest cs' qs' with
        | error e => rw [hrest] at ih; simpa [Except.isOk, Except.toBool] using ih
        | ok tail => rw [hrest] at ih; simpa [Except.isOk, Except.toBool] using ih

theorem zipWith_rows_len (W : ℕ) (f : ℚ → ℚ → ℚ) :
    ∀ (A B : List (List ℚ)), rectangular W A → rectangular W B →
      rectangular W (List.zipWith (fun a b => List.zipWith f a b) A B)
  | [], B, _, _ => by simp [rectangular]
  | a :: as, [], _, _ => by simp [rectangular]
  | a :: as, b :: bs, hA, hB => by
    intro r hr
    simp only [List.zipWith_cons_cons, List.mem_cons] at hr
    rcases hr with rfl | hr
    · have ha := hA a (List.mem_cons_self _ _)
      have hb := hB b (List.mem_cons_self _ _)
      simp [ha, hb]
    · exact zipWith_rows_len W f as bs
        (fun r hr => hA r (List.mem_cons_of_mem _ hr))
        (fun r hr => hB r (List.mem_cons_of_mem _ hr)) r hr

theorem positionChanges_rect (W : ℕ) (pos : List (List ℚ))
    (hrect : rectangular W pos) : rectangular W (positionChanges W pos) := by
  unfold positionChanges
  refine zipWith_rows_len W _ pos (List.replicate W 0 :: pos) hrect ?_
  intro r hr
  rcases List.mem_cons.1 hr with rfl | hr
  · simp
  · exact hrect r hr

theorem zip_any_snd (L1 : List ℚ) (L2 : List (List ℚ))
    (h : L1.length = L2.length) :
    ((L1.zip L2).any fun s => s.2.any fun c => decide (0 < c)) =
      L2.any fun r => r.any fun c => decide (0 < c) := by
  induction L1 generalizing L2 with
  | nil => cases L2 with
    | nil => simp
    | cons b bs => simp at h
  | cons a as ih => cases L2 with
    | nil => simp at h
    | cons b bs =>
      simpa using congrArg (fun x => (b.any fun c => decide (0 < c)) || x)
        (ih bs (by simpa using h))

theorem row_sub_any_pos (cur prev : List ℚ) :
    (List.zipWith (fun c p => c - p) cur prev).any (fun c => decide (0 < c)) =
      (List.zipWith (fun p c => decide (p < c)) prev cur).any id := by
  induction cur generalizing prev with
  | nil => cases prev <;> simp
  | cons c cs ih =>
    cases prev with
    | nil => simp
    | cons p ps =>
      simp only [List.zipWith_cons_cons, List.any_cons, ih ps, id]
      congr 1
      rw [decide_eq_decide]
      exact sub_pos

theorem sub_matrix_any (curs : List (List ℚ)) :
    ∀ (prevs : List (List ℚ)),
      (List.zipWith (fun cur prev => List.zipWith (fun c p => c - p) cur prev)
          curs prevs).any (fun r => r.any (fun c => decide (0 < c))) =
        (List.zipWith (fun prev cur =>
          (List.zipWith (fun p c => decide (p < c)) prev cur).any id) prevs curs).any id := by
  induction curs with
  | nil => intro prevs; cases prevs <;> simp
  | cons cur curs ih =>
    intro prevs
    cases prevs with
    | nil => simp
    | cons prev prevs =>
      simp only [List.zipWith_cons_cons, List.any_cons, ih prevs, id]
      congr 1
      exact row_sub_any_pos cur prev

theorem changes_tail_any_buy (W : ℕ) (pos : List (List ℚ)) :
    ((positionChanges W pos).tail).any (fun r => r.any (fun c => decide (0 < c))) =
      hasBuyTransition pos := by
  cases pos with
  | nil => simp [positionChanges, hasBuyTransition]
  | cons p0 ps =>
    unfold positionChanges hasBuyTransition
    simp only [List.zipWith_cons_cons, List.tail_cons]
    exact sub_matrix_any ps (p0 :: ps)

/-- C8 (amended): with an unrecognized mode tag the loop-based reference
raises only when the scan reaches a buy transition: the call succeeds if
and only if the position matrix contains no buy transition, so the error is
not detected eagerly at call start. -/
theorem run_unsupported_mode_lazy (prices : List ℚ) (pos : List (List ℚ))
    (cfg : BTConfig) (hm : ¬ recognizedMode cfg.trade_mode)
    (hshape : pos.length = prices.length) (hne : prices ≠ [])
    (hrect : rectangular (pos.headD []).length pos) :
    (run_backtest_python prices pos cfg).isOk = !hasBuyTransition pos := by
  cases prices with
  | nil => exact absurd rfl hne
  | cons p0 prest =>
    have hrectCh := positionChanges_rect (pos.headD []).length pos hrect
    have hsteps : ∀ s ∈ prest.zip (positionChanges (pos.headD []).length pos).tail,
        s.2.length = (pos.headD []).length := fun s hs =>
      hrectCh s.2 (List.mem_of_mem_tail (List.of_mem_zip hs).2)
    have hscan := scanSteps_isOk_unrecognized cfg hm (pos.headD []).length
      (prest.zip (positionChanges (pos.headD []).length pos).tail)
      (List.replicate (pos.headD []).length cfg.initial_cash)
      (List.replicate (pos.headD []).length 0)
      (by simp) (by simp) hsteps
    have hclen : (positionChanges (pos.headD []).length pos).length = pos.length := by
      simp [positionChanges]
    have hztail : prest.length = (positionChanges (pos.headD []).length pos).tail.length := by
      rw [List.length_tail, hclen, hshape]
      simp
    rw [zip_any_snd _ _ hztail] at hscan
    rw [changes_tail_any_buy] at hscan
    simp only [run_backtest_python, if_pos hshape]
    cases hs : scanSteps cfg
        (prest.zip (positionChanges (pos.headD []).length pos).tail)
        (List.replicate (pos.headD []).length cfg.initial_cash)
        (List.replicate (pos.headD []).length 0) with
    | error e => rw [hs] at hscan; simpa [hs, Except.isOk, Except.toBool] using hscan
    | ok rows => rw [hs] at hscan; simpa [hs, Except.isOk, Except.toBool] using hscan

/-- Witness for C8 (amended) at a concrete input: mode tag `"margin"` with
a buy transition at `t = 1` makes the call fail. -/
theorem run_unsupported_mode_lazy_witness :
    ¬ recognizedMode cfgBogusMode.trade_mode ∧
    ([[0], [1]] : List (List ℚ)).length = ([100, 110] : List ℚ).length ∧
    ([100, 110] : List ℚ) ≠ [] ∧
    rectangular (([[0], [1]] : List (List ℚ)).headD []).length [[0], [1]] ∧
    (run_backtest_python [100, 110] [[0], [1]] cfgBogusMode).isOk =
      !hasBuyTransition [[0], [1]] :=
  ⟨by decide, by decide, by decide, by decide,
    run_unsupported_mode_lazy [100, 110] [[0], [1]] cfgBogusMode
      (by decide) (by decide) (by decide) (by decide)⟩

/-- C8 counterexample: an unrecognized mode tag with a position matrix
containing no buy transition — the call succeeds instead of failing. -/
theorem run_unsupported_mode_no_buy_succeeds :
    (run_backtest_python [100, 110] [[0], [0]] cfgBogusMode).isOk = true := by
  norm_num [run_backtest_python, scanSteps, stepRow, stepCol, buyQty, qfloor,
    positionChanges, cfgBogusMode, List.replicate, List.zip, List.zipWith,
    Except.isOk, Except.toBool]

/-! ### C3: the value identity -/

theorem replicate_getD (n : ℕ) (a : ℚ) (i : ℕ) :
    (List.replicate n a).getD i 0 = if i < n then a else 0 := by
  split_ifs with h
  · rw [List.getD_eq_getElem _ _ (by simpa using h)]
    simp
  · exact List.getD_eq_default _ _ (by simpa using h)

theorem stepRow_ok_len (cfg : BTConfig) (price : ℚ) :
    ∀ (ch cash qty cs' qs' : List ℚ),
      stepRow cfg price ch cash qty = .ok (cs', qs') → cs'.length = qs'.length
  | [], cash, qty, cs', qs', h => by
    cases cash <;> cases qty <;>
      · simp only [stepRow, Except.ok.injEq, Prod.mk.injEq] at h
        obtain ⟨h1, h2⟩ := h
        simp [← h1, ← h2]
  | c :: chs, [], qty, cs', qs', h => by
    simp only [stepRow, Except.ok.injEq, Prod.mk.injEq] at h
    obtain ⟨h1, h2⟩ := h
    simp [← h1, ← h2]
  | c :: chs, c0 :: cs, [], cs', qs', h => by
    simp only [stepRow, Except.ok.injEq, Prod.mk.injEq] at h
    obtain ⟨h1, h2⟩ := h
    simp [← h1, ← h2]
  | c :: chs, c0 :: cs, q0 :: qs, cs', qs', h => by
    revert h
    simp only [stepRow]
    cases hcol : stepCol cfg price c c0 q0 with
    | error e => intro h; exact absurd h (by simp)
    | ok hd =>
      cases hrec : stepRow cfg price chs cs qs with
      | error e => intro h; exact absurd h (by simp)
      | ok tl =>
        intro h
        simp only [Except.ok.injEq, Prod.mk.injEq] at h
        obtain ⟨h1, h2⟩ := h
        have := stepRow_ok_len cfg price chs cs qs tl.1 tl.2 (by rw [hrec])
        simp [← h1, ← h2, this]

theorem scanSteps_rows_identity (cfg : BTConfig) :
    ∀ (steps : List (ℚ × List ℚ)) (cash qty : List ℚ)
      (rows : List (List ℚ × List ℚ × List ℚ)),
      scanSteps cfg steps cash qty = .ok rows →
      rows.length = steps.length ∧
      ∀ k w, ((rows.getD k ([], [], [])).1).getD w 0 =
        ((rows.getD k ([], [], [])).2.1).getD w 0 +
        ((rows.getD k ([], [], [])).2.2).getD w 0 * (steps.getD k (0, [])).1
  | [], cash, qty, rows, h => by
    simp only [scanSteps, Except.ok.injEq] at h
    subst h
    refine ⟨rfl, fun k w => ?_⟩
    simp [List.getD_nil]
  | (price, ch) :: rest, cash, qty, rows, h => by
    simp only [scanSteps] at h
    cases hrow : stepRow cfg price ch cash qty with
    | error e => rw [hrow] at h; exact absurd h (by simp)
    | ok out =>
      obtain ⟨cash', qty'⟩ := out
      rw [hrow] at h
      simp only [Except.ok.injEq] at h
      cases hrest : scanSteps cfg rest cash' qty' with
      | error e => rw [hrest] at h; exact absurd h (by simp)
      | ok tail =>
        rw [hrest] at h
        simp only [Except.ok.injEq] at h
        obtain ⟨hlen, hrec⟩ := scanSteps_rows_identity cfg rest cash' qty' tail hrest
        have hout := stepRow_ok_len cfg price ch cash qty cash' qty' hrow
        subst h
        refine ⟨by simp [hlen], fun k w => ?_⟩
        cases k with
        | zero =>
          simpa using zipWith_getD (fun c q => c + q * price) (by ring) cash' qty' hout w
        | succ k => simpa using hrec k w

/-- C3: whenever the reference simulator succeeds, every recorded portfolio
value satisfies `value[t,w] = cash[t,w] + quantity[t,w] * price[t]` exactly,
for every time step `t` (including `t = 0`) and every column `w`, with the
current step's price. -/
theorem run_value_identity (prices : List ℚ) (pos : List (List ℚ)) (cfg : BTConfig)
    (pv cm qm : List (List ℚ))
    (h : run_backtest_python prices pos cfg = .ok (pv, cm, qm)) :
    ∀ t w, (pv.getD t []).getD w 0 =
      (cm.getD t []).getD w 0 + (qm.getD t []).getD w 0 * prices.getD t 0 := by
  unfold run_backtest_python at h
  split at h
  case isFalse => exact absurd h (by simp)
  case isTrue hshape =>
    cases prices with
    | nil => exact absurd h (by simp)
    | cons p0 prest =>
      simp only [] at h
      cases hs : scanSteps cfg (prest.zip (positionChanges (pos.headD []).length pos).tail)
          (List.replicate (pos.headD []).length cfg.initial_cash)
          (List.replicate (pos.headD []).length 0) with
      | error e => rw [hs] at h; exact absurd h (by simp)
      | ok rows =>
        rw [hs] at h
        simp only [Except.ok.injEq, Prod.mk.injEq] at h
        obtain ⟨hpv, hcm, hqm⟩ := h
        obtain ⟨hlen, hrec⟩ := scanSteps_rows_identity cfg _ _ _ rows hs
        have h1 : (positionChanges (pos.headD []).length pos).length = pos.length := by
          simp [positionChanges]
        have h2 : pos.length = prest.length + 1 := by
          rw [hshape]; simp
        have hsteps_len :
            (prest.zip (positionChanges (pos.headD []).length pos).tail).length =
              prest.length := by
          rw [List.length_zip, List.length_tail, h1, h2]
          omega
        intro t w
        cases t with
        | zero =>
          rw [← hpv, ← hcm, ← hqm]
          simp only [List.getD_cons_zero, replicate_getD]
          split_ifs <;> ring
        | succ k =>
          rw [← hpv, ← hcm, ← hqm]
          simp only [List.getD_cons_succ]
          by_cases hk : k < rows.length
          · have e1 : (List.map (fun r => r.1) rows).getD k [] =
                (rows.getD k ([], [], [])).1 := by
              rw [List.getD_eq_getElem _ _ (by simpa using hk),
                List.getD_eq_getElem _ _ hk, List.getElem_map]
            have e2 : (List.map (fun r => r.2.1) rows).getD k [] =
                (rows.getD k ([], [], [])).2.1 := by
              rw [List.getD_eq_getElem _ _ (by simpa using hk),
                List.getD_eq_getElem _ _ hk, List.getElem_map]
            have e3 : (List.map (fun r => r.2.2) rows).getD k [] =
                (rows.getD k ([], [], [])).2.2 := by
              rw [List.getD_eq_getElem _ _ (by simpa using hk),
                List.getD_eq_getElem _ _ hk, List.getElem_map]
            have hkz : k < (prest.zip
                (positionChanges (pos.headD []).length pos).tail).length := by
              rw [← hlen]; exact hk
            have hkp : k < prest.length := by rw [← hsteps_len]; exact hkz
            have e4 : ((prest.zip
                (positionChanges (pos.headD []).length pos).tail).getD k (0, [])).1 =
                prest.getD k 0 := by
              rw [List.getD_eq_getElem _ _ hkz, List.getD_eq_getElem _ _ hkp,
                List.getElem_zip]
            rw [e1, e2, e3, ← e4]
            exact hrec k w
          · have hk' : rows.length ≤ k := Nat.le_of_not_lt hk
            have e1 : (List.map (fun r => r.1) rows).getD k [] = [] :=
              List.getD_eq_default _ _ (by simpa using hk')
            have e2 : (List.map (fun r => r.2.1) rows).getD k [] = [] :=
              List.getD_eq_default _ _ (by simpa using hk')
            have e3 : (List.map (fun r => r.2.2) rows).getD k [] = [] :=
              List.getD_eq_default _ _ (by simpa using hk')
            rw [e1, e2, e3]
            simp [List.getD_nil]

/-- Witness for C3 at the Scenario A data. -/
theorem run_value_identity_witness :
    run_backtest_python [100, 110, 90] [[0], [1], [0]] cfgScenarioA =
      .ok ([[1000], [1000], [820]], [[1000], [10], [820]], [[0], [9], [0]]) ∧
    ∀ t w, ((([[1000], [1000], [820]] : List (List ℚ)).getD t []).getD w 0 =
      (([[1000], [10], [820]] : List (List ℚ)).getD t []).getD w 0 +
      (([[0], [9], [0]] : List (List ℚ)).getD t []).getD w 0 *
        ([100, 110, 90] : List ℚ).getD t 0) := by
  have h : run_backtest_python [100, 110, 90] [[0], [1], [0]] cfgScenarioA =
      .ok ([[1000], [1000], [820]], [[1000], [10], [820]], [[0], [9], [0]]) := by
    norm_num [run_backtest_python, scanSteps, stepRow, stepCol, buyQty, qfloor,
      positionChanges, cfgScenarioA, List.replicate, List.zip, List.zipWith]
  exact ⟨h, run_value_identity _ _ _ _ _ _ h⟩

/-! ### C2: solvency -/

theorem qfloor_nonneg (x : ℚ) (h : 0 ≤ x) : 0 ≤ qfloor x := by
  unfold qfloor
  exact_mod_cast Int.floor_nonneg.mpr h

theorem qfloor_mul_le (cash price : ℚ) (hp : 0 < price) :
    qfloor (cash / price) * price ≤ cash := by
  unfold qfloor
  have h1 : (⌊cash / price⌋ : ℚ) ≤ cash / price := Int.floor_le _
  calc (⌊cash / price⌋ : ℚ) * price ≤ cash / price * price :=
        mul_le_mul_of_nonneg_right h1 hp.le
    _ = cash := div_mul_cancel₀ _ hp.ne'

theorem buyQty_ok_nonneg (cfg : BTConfig) (price cash qty b0 : ℚ)
    (hp : 0 < price) (hc : 0 ≤ cash)
    (hfca : 0 ≤ cfg.fixed_cash_amount) (hps : 0 ≤ cfg.position_size)
    (h : buyQty cfg price cash qty = .ok b0) : 0 ≤ b0 := by
  unfold buyQty at h
  split_ifs at h <;> simp only [Except.ok.injEq] at h
  · rw [← h]; exact qfloor_nonneg _ (div_nonneg hc hp.le)
  · rw [← h]; exact le_max_left _ _
  · rw [← h]; exact qfloor_nonneg _ (div_nonneg hfca hp.le)
  · rw [← h]; exact hps

theorem stepCol_nonneg (cfg : BTConfig) (price ch cash qty c' q' : ℚ)
    (hp : 0 < price) (hfca : 0 ≤ cfg.fixed_cash_amount)
    (hps : 0 ≤ cfg.position_size) (hc : 0 ≤ cash) (hq : 0 ≤ qty)
    (h : stepCol cfg price ch cash qty = .ok (c', q')) : 0 ≤ c' ∧ 0 ≤ q' := by
  unfold stepCol at h
  split_ifs at h with h1 h2
  · cases hb : buyQty cfg price cash qty with
    | error e => rw [hb] at h; exact absurd h (by simp)
    | ok b0 =>
      rw [hb] at h
      simp only [Except.ok.injEq, Prod.mk.injEq] at h
      obtain ⟨hc', hq'⟩ := h
      have hb0 := buyQty_ok_nonneg cfg price cash qty b0 hp hc hfca hps hb
      have hfl : 0 ≤ qfloor (cash / price) :=
        qfloor_nonneg _ (div_nonneg hc hp.le)
      have hbmin : 0 ≤ min b0 (qfloor (cash / price)) := le_min hb0 hfl
      have hble : min b0 (qfloor (cash / price)) * price ≤ cash := by
        calc min b0 (qfloor (cash / price)) * price
            ≤ qfloor (cash / price) * price :=
              mul_le_mul_of_nonneg_right (min_le_right _ _) hp.le
          _ ≤ cash := qfloor_mul_le cash price hp
      constructor
      · rw [← hc']; linarith
      · rw [← hq']; exact add_nonneg hq hbmin
  · simp only [Except.ok.injEq, Prod.mk.injEq] at h
    obtain ⟨hc', hq'⟩ := h
    exact ⟨hc' ▸ add_nonneg hc (mul_nonneg hq hp.le), hq' ▸ le_refl 0⟩
  · simp only [Except.ok.injEq, Prod.mk.injEq] at h
    obtain ⟨hc', hq'⟩ := h
    exact ⟨hc' ▸ hc, hq' ▸ hq⟩

theorem stepRow_nonneg (cfg : BTConfig) (price : ℚ) (hp : 0 < price)
    (hfca : 0 ≤ cfg.fixed_cash_amount) (hps : 0 ≤ cfg.position_size) :
    ∀ (ch cash qty cs' qs' : List ℚ),
      (∀ x ∈ cash, 0 ≤ x) → (∀ x ∈ qty, 0 ≤ x) →
      stepRow cfg price ch cash qty = .ok (cs', qs') →
      (∀ x ∈ cs', 0 ≤ x) ∧ (∀ x ∈ qs', 0 ≤ x)
  | [], cash, qty, cs', qs', _, _, h => by
    cases cash <;> cases qty <;>
      · simp only [stepRow, Except.ok.injEq, Prod.mk.injEq] at h
        obtain ⟨h1, h2⟩ := h
        simp [← h1, ← h2]
  | c :: chs, [], qty, cs', qs', _, _, h => by
    simp only [stepRow, Except.ok.injEq, Prod.mk.injEq] at h
    obtain ⟨h1, h2⟩ := h
    simp [← h1, ← h2]
  | c :: chs, c0 :: cs, [], cs', qs', _, _, h => by
    simp only [stepRow, Except.ok.injEq, Prod.mk.injEq] at h
    obtain ⟨h1, h2⟩ := h
    simp [← h1, ← h2]
  | c :: chs, c0 :: cs, q0 :: qs, cs', qs', hcash, hqty, h => by
    revert h
    simp only [stepRow]
    cases hcol : stepCol cfg price c c0 q0 with
    | error e => intro h; exact absurd h (by simp)
    | ok hd =>
      cases hrec : stepRow cfg price chs cs qs with
      | error e => intro h; exact absurd h (by simp)
      | ok tl =>
        intro h
        simp only [Except.ok.injEq, Prod.mk.injEq] at h
        obtain ⟨h1, h2⟩ := h
        have hhd := stepCol_nonneg cfg price c c0 q0 hd.1 hd.2 hp hfca hps
          (hcash c0 (List.mem_cons_self _ _)) (hqty q0 (List.mem_cons_self _ _))
          (by rw [hcol])
        have htl := stepRow_nonneg cfg price hp hfca hps chs cs qs tl.1 tl.2
          (fun x hx => hcash x (List.mem_cons_of_mem _ hx))
          (fun x hx => hqty x (List.mem_cons_of_mem _ hx)) (by rw [hrec])
        constructor
        · intro x hx
          rw [← h1] at hx
          rcases List.mem_cons.1 hx with rfl | hx
          · exact hhd.1
          · exact htl.1 x hx
        · intro x hx
          rw [← h2] at hx
          rcases List.mem_cons.1 hx with rfl | hx
          · exact hhd.2
          · exact htl.2 x hx

theorem scanSteps_nonneg (cfg : BTConfig)
    (hfca : 0 ≤ cfg.fixed_cash_amount) (hps : 0 ≤ cfg.position_size) :
    ∀ (steps : List (ℚ × List ℚ)) (cash qty : List ℚ)
      (rows : List (List ℚ × List ℚ × List ℚ)),
      (∀ s ∈ steps, 0 < s.1) →
      (∀ x ∈ cash, 0 ≤ x) → (∀ x ∈ qty, 0 ≤ x) →
      scanSteps cfg steps cash qty = .ok rows →
      ∀ r ∈ rows, (∀ x ∈ r.2.1, 0 ≤ x) ∧ (∀ x ∈ r.2.2, 0 ≤ x)
  | [], cash, qty, rows, _, _, _, h => by
    simp only [scanSteps, Except.ok.injEq] at h
    subst h
    simp
  | (price, ch) :: rest, cash, qty, rows, hpos, hcash, hqty, h => by
    simp only [scanSteps] at h
    cases hrow : stepRow cfg price ch cash qty with
    | error e => rw [hrow] at h; exact absurd h (by simp)
    | ok out =>
      obtain ⟨cash', qty'⟩ := out
      rw [hrow] at h
      simp only [Except.ok.injEq] at h
      cases hrest : scanSteps cfg rest cash' qty' with
      | error e => rw [hrest] at h; exact absurd h (by simp)
      | ok tail =>
        rw [hrest] at h
        simp only [Except.ok.injEq] at h
        have hp : 0 < price := hpos (price, ch) (List.mem_cons_self _ _)
        have hout := stepRow_nonneg cfg price hp hfca hps ch cash qty cash' qty'
          hcash hqty hrow
        have htail := scanSteps_nonneg cfg hfca hps rest cash' qty' tail
          (fun s hs => hpos s (List.mem_cons_of_mem _ hs)) hout.1 hout.2 hrest
        subst h
        intro r hr
        rcases List.mem_cons.1 hr with rfl | hr
        · exact hout
        · exact htail r hr

/-- C2: for every positive price series, every position matrix of matching
row count, every recognized mode with nonnegative sizing parameters, and
every nonnegative initial cash, a successful run keeps every recorded cash
entry nonnegative — the universal post-cap `min(buy, floor(cash/price))`
prevents overspending in every mode. -/
theorem run_cash_nonneg (prices : List ℚ) (pos : List (List ℚ)) (cfg : BTConfig)
    (pv cm qm : List (List ℚ))
    (hmode : recognizedMode cfg.trade_mode)
    (hp : ∀ p ∈ prices, 0 < p) (hic : 0 ≤ cfg.initial_cash)
    (hfca : 0 ≤ cfg.fixed_cash_amount) (hps : 0 ≤ cfg.position_size)
    (h : run_backtest_python prices pos cfg = .ok (pv, cm, qm)) :
    ∀ row ∈ cm, ∀ c ∈ row, 0 ≤ c := by
  unfold run_backtest_python at h
  split at h
  case isFalse => exact absurd h (by simp)
  case isTrue hshape =>
    cases prices with
    | nil => exact absurd h (by simp)
    | cons p0 prest =>
      simp only [] at h
      cases hs : scanSteps cfg (prest.zip (positionChanges (pos.headD []).length pos).tail)
          (List.replicate (pos.headD []).length cfg.initial_cash)
          (List.replicate (pos.headD []).length 0) with
      | error e => rw [hs] at h; exact absurd h (by simp)
      | ok rows =>
        rw [hs] at h
        simp only [Except.ok.injEq, Prod.mk.injEq] at h
        obtain ⟨hpv, hcm, hqm⟩ := h
        have hstepspos : ∀ s ∈ prest.zip (positionChanges (pos.headD []).length pos).tail,
            0 < s.1 := fun s hs' =>
          hp s.1 (List.mem_cons_of_mem _ (List.of_mem_zip hs').1)
        have hrows := scanSteps_nonneg cfg hfca hps _ _ _ rows hstepspos
          (fun x hx => (List.eq_of_mem_replicate hx) ▸ hic)
          (fun x hx => (List.eq_of_mem_replicate hx) ▸ le_refl 0) hs
        intro row hrow
        rw [← hcm] at hrow
        rcases List.mem_cons.1 hrow with rfl | hrow
        · intro c hc
          exact (List.eq_of_mem_replicate hc) ▸ hic
        · obtain ⟨r, hr, rfl⟩ := List.mem_map.1 hrow
          exact (hrows r hr).1

/-- Witness for C2 at the Scenario A data. -/
theorem run_cash_nonneg_witness :
    recognizedMode cfgScenarioA.trade_mode ∧
    (∀ p ∈ ([100, 110, 90] : List ℚ), 0 < p) ∧
    (0 : ℚ) ≤ cfgScenarioA.initial_cash ∧
    run_backtest_python [100, 110, 90] [[0], [1], [0]] cfgScenarioA =
      .ok ([[1000], [1000], [820]], [[1000], [10], [820]], [[0], [9], [0]]) ∧
    ∀ row ∈ ([[1000], [10], [820]] : List (List ℚ)), ∀ c ∈ row, 0 ≤ c := by
  have h : run_backtest_python [100, 110, 90] [[0], [1], [0]] cfgScenarioA =
      .ok ([[1000], [1000], [820]], [[1000], [10], [820]], [[0], [9], [0]]) := by
    norm_num [run_backtest_python, scanSteps, stepRow, stepCol, buyQty, qfloor,
      positionChanges, cfgScenarioA, List.replicate, List.zip, List.zipWith]
  exact ⟨by decide, by decide, by decide, h,
    run_cash_nonneg _ _ _ _ _ _ (by decide) (by decide) (by decide) (by decide)
      (by decide) h⟩

/-! ### C4: totality on recognized modes, and structural lemmas -/

theorem buyQty_recognized (cfg : BTConfig) (hm : recognizedMode cfg.trade_mode)
    (price cash qty : ℚ) :
    buyQty cfg price cash qty = .ok (buyQtyT cfg price cash qty) := by
  unfold buyQty buyQtyT
  rcases hm with h | h | h | h <;> rw [h] <;> rfl

theorem stepCol_recognized (cfg : BTConfig) (hm : recognizedMode cfg.trade_mode)
    (price ch cash qty : ℚ) :
    stepCol cfg price ch cash qty = .ok (stepColT cfg price ch cash qty) := by
  unfold stepCol stepColT
  split_ifs with h1 h2
  · rw [buyQty_recognized cfg hm]
  · rfl
  · rfl

theorem stepRow_recognized (cfg : BTConfig) (hm : recognizedMode cfg.trade_mode)
    (price : ℚ) : ∀ (ch cash qty : List ℚ),
    stepRow cfg price ch cash qty = .ok (stepRowT cfg price ch cash qty)
  | [], cash, qty => by cases cash <;> cases qty <;> rfl
  | c :: chs, [], qty => rfl
  | c :: chs, c0 :: cs, [] => rfl
  | c :: chs, c0 :: cs, q0 :: qs => by
    simp only [stepRow, stepRowT, stepCol_recognized cfg hm,
      stepRow_recognized cfg hm price chs cs qs]

theorem scanSteps_recognized (cfg : BTConfig) (hm : recognizedMode cfg.trade_mode) :
    ∀ (steps : List (ℚ × List ℚ)) (cash qty : List ℚ),
    scanSteps cfg steps cash qty = .ok (scanStepsT cfg steps cash qty)
  | [], cash, qty => rfl
  | (price, ch) :: rest, cash, qty => by
    simp only [scanSteps, scanStepsT, stepRow_recognized cfg hm,
      scanSteps_recognized cfg hm rest]

theorem stepRowT_length (cfg : BTConfig) (price : ℚ) :
    ∀ (ch cash qty : List ℚ), ch.length = cash.length → cash.length = qty.length →
      (stepRowT cfg price ch cash qty).1.length = cash.length ∧
      (stepRowT cfg price ch cash qty).2.length = cash.length
  | [], cash, qty, h1, h2 => by
    cases cash <;> cases qty <;> simp_all [stepRowT]
  | c :: chs, [], qty, h1, _ => by simp at h1
  | c :: chs, c0 :: cs, [], _, h2 => by simp at h2
  | c :: chs, c0 :: cs, q0 :: qs, h1, h2 => by
    have ih := stepRowT_length cfg price chs cs qs (by simpa using h1) (by simpa using h2)
    simp only [stepRowT, List.length_cons]
    exact ⟨by simp [ih.1], by simp [ih.2]⟩

theorem stepRowT_getD (cfg : BTConfig) (price : ℚ) :
    ∀ (ch cash qty : List ℚ) (w : ℕ), ch.length = cash.length →
      cash.length = qty.length → w < cash.length →
      (stepRowT cfg price ch cash qty).1.getD w 0 =
        (stepColT cfg price (ch.getD w 0) (cash.getD w 0) (qty.getD w 0)).1 ∧
      (stepRowT cfg price ch cash qty).2.getD w 0 =
        (stepColT cfg price (ch.getD w 0) (cash.getD w 0) (qty.getD w 0)).2
  | [], cash, qty, w, h1, h2, hw => by
    rw [← h1] at hw; simp at hw
  | c :: chs, [], qty, w, h1, h2, hw => by simp at hw
  | c :: chs, c0 :: cs, [], w, h1, h2, hw => by simp at h2
  | c :: chs, c0 :: cs, q0 :: qs, w, h1, h2, hw => by
    cases w with
    | zero => simp [stepRowT]
    | succ w =>
      have ih := stepRowT_getD cfg price chs cs qs w
        (by simpa using h1) (by simpa using h2) (by simpa using hw)
      simpa [stepRowT] using ih

theorem zipWith3_length_eq (f : ℚ → ℚ → ℚ → ℚ) :
    ∀ (as bs cs : List ℚ), as.length = bs.length → bs.length = cs.length →
      (zipWith3 f as bs cs).length = as.length
  | [], bs, cs, h1, h2 => by cases bs <;> cases cs <;> simp_all [zipWith3]
  | a :: as, [], cs, h1, _ => by simp at h1
  | a :: as, b :: bs, [], _, h2 => by simp at h2
  | a :: as, b :: bs, c :: cs, h1, h2 => by
    have ih := zipWith3_length_eq f as bs cs (by simpa using h1) (by simpa using h2)
    simp [zipWith3, ih]

theorem zipWith3_getD (f : ℚ → ℚ → ℚ → ℚ) :
    ∀ (as bs cs : List ℚ) (w : ℕ), as.length = bs.length → bs.length = cs.length →
      w < as.length →
      (zipWith3 f as bs cs).getD w 0 = f (as.getD w 0) (bs.getD w 0) (cs.getD w 0)
  | [], bs, cs, w, h1, h2, hw => by simp at hw
  | a :: as, [], cs, w, h1, _, _ => by simp at h1
  | a :: as, b :: bs, [], w, _, h2, _ => by simp at h2
  | a :: as, b :: bs, c :: cs, w, h1, h2, hw => by
    cases w with
    | zero => simp [zipWith3]
    | succ w =>
      have ih := zipWith3_getD f as bs cs w
        (by simpa using h1) (by simpa using h2) (by simpa using hw)
      simpa [zipWith3] using ih

theorem map_getD_lt (f : ℚ → ℚ) (l : List ℚ) (w : ℕ) (h : w < l.length) :
    (l.map f).getD w 0 = f (l.getD w 0) := by
  rw [List.getD_eq_getElem _ _ (by simpa using h), List.getElem_map,
    List.getD_eq_getElem _ _ h]

theorem zipWith_getD_lt (f : ℚ → ℚ → ℚ) (l1 l2 : List ℚ) (w : ℕ)
    (h1 : w < l1.length) (h2 : w < l2.length) :
    (List.zipWith f l1 l2).getD w 0 = f (l1.getD w 0) (l2.getD w 0) := by
  rw [List.getD_eq_getElem _ _ (by simp [List.length_zipWith]; omega),
    List.getElem_zipWith, List.getD_eq_getElem _ _ h1, List.getD_eq_getElem _ _ h2]

theorem vecBuyRaw_length (cfg : BTConfig) (W : ℕ) (price : ℚ) (cash qty : List ℚ)
    (hc : cash.length = W) (hq : qty.length = W) :
    (vecBuyRaw cfg W price cash qty).length = W := by
  unfold vecBuyRaw
  split_ifs <;> simp [hc, hq]

theorem vecBuyRaw_getD (cfg : BTConfig) (W : ℕ) (price : ℚ) (cash qty : List ℚ)
    (w : ℕ) (hc : cash.length = W) (hq : qty.length = W) (hw : w < W) :
    (vecBuyRaw cfg W price cash qty).getD w 0 =
      buyQtyT cfg price (cash.getD w 0) (qty.getD w 0) := by
  unfold vecBuyRaw buyQtyT
  split_ifs with h1 h2 h3 h4 h5 h6 h7 <;>
    simp_all [replicate_getD, map_getD_lt, zipWith_getD_lt, hw]

theorem getD_mem_of_lt (l : List ℚ) (w : ℕ) (hw : w < l.length) :
    l.getD w 0 ∈ l := by
  rw [List.getD_eq_getElem _ _ hw]
  exact List.getElem_mem hw

theorem any_pos_false_getD (ch : List ℚ)
    (h : (ch.any fun c => decide (0 < c)) = false) (w : ℕ) (hw : w < ch.length) :
    ¬ 0 < ch.getD w 0 := by
  rw [List.any_eq_false] at h
  intro hp
  exact absurd (by simpa using h _ (getD_mem_of_lt ch w hw)) (by simpa using hp)

theorem any_neg_false_getD (ch : List ℚ)
    (h : (ch.any fun c => decide (c < 0)) = false) (w : ℕ) (hw : w < ch.length) :
    ¬ ch.getD w 0 < 0 := by
  rw [List.any_eq_false] at h
  intro hp
  exact absurd (by simpa using h _ (getD_mem_of_lt ch w hw)) (by simpa using hp)

theorem vecBuyBlock_length (cfg : BTConfig) (W : ℕ) (price : ℚ)
    (ch cash qty : List ℚ) (hch : ch.length = W) (hc : cash.length = W)
    (hq : qty.length = W) :
    (vecBuyBlock cfg W price ch cash qty).1.length = W ∧
    (vecBuyBlock cfg W price ch cash qty).2.length = W := by
  have hraw := vecBuyRaw_length cfg W price cash qty hc hq
  unfold vecBuyBlock
  constructor
  · rw [zipWith3_length_eq _ cash ch
      (List.zipWith (fun b c => min b (qfloor (c / price)))
        (List.zipWith (fun b c => if 0 < c then b else 0)
          (vecBuyRaw cfg W price cash qty) ch) cash)
      (by omega) (by simp [List.length_zipWith]; omega)]
    exact hc
  · rw [zipWith3_length_eq _ qty ch
      (List.zipWith (fun b c => min b (qfloor (c / price)))
        (List.zipWith (fun b c => if 0 < c then b else 0)
          (vecBuyRaw cfg W price cash qty) ch) cash)
      (by omega) (by simp [List.length_zipWith]; omega)]
    exact hq

theorem vecBuyBlock_getD (cfg : BTConfig) (W : ℕ) (price : ℚ)
    (ch cash qty : List ℚ) (w : ℕ) (hch : ch.length = W) (hc : cash.length = W)
    (hq : qty.length = W) (hw : w < W) :
    (vecBuyBlock cfg W price ch cash qty).1.getD w 0 =
      (if 0 < ch.getD w 0 then
        cash.getD w 0 -
          min (buyQtyT cfg price (cash.getD w 0) (qty.getD w 0))
            (qfloor (cash.getD w 0 / price)) * price
      else cash.getD w 0) ∧
    (vecBuyBlock cfg W price ch cash qty).2.getD w 0 =
      (if 0 < ch.getD w 0 then
        qty.getD w 0 +
          min (buyQtyT cfg price (cash.getD w 0) (qty.getD w 0))
            (qfloor (cash.getD w 0 / price))
      else qty.getD w 0) := by
  have hraw := vecBuyRaw_length cfg W price cash qty hc hq
  have hrawD := vecBuyRaw_getD cfg W price cash qty w hc hq hw
  have hmaskLen : (List.zipWith (fun b c => if 0 < c then b else 0)
      (vecBuyRaw cfg W price cash qty) ch).length = W := by
    simp [List.length_zipWith]; omega
  have hmaskD : (List.zipWith (fun b c => if 0 < c then b else 0)
      (vecBuyRaw cfg W price cash qty) ch).getD w 0 =
      if 0 < ch.getD w 0 then buyQtyT cfg price (cash.getD w 0) (qty.getD w 0)
      else 0 := by
    rw [zipWith_getD_lt _ _ _ w (by omega) (by omega), hrawD]
  have hcapLen : (List.zipWith (fun b c => min b (qfloor (c / price)))
      (List.zipWith (fun b c => if 0 < c then b else 0)
        (vecBuyRaw cfg W price cash qty) ch) cash).length = W := by
    simp [List.length_zipWith]; omega
  have hcapD : (List.zipWith (fun b c => min b (qfloor (c / price)))
      (List.zipWith (fun b c => if 0 < c then b else 0)
        (vecBuyRaw cfg W price cash qty) ch) cash).getD w 0 =
      min (if 0 < ch.getD w 0 then buyQtyT cfg price (cash.getD w 0) (qty.getD w 0)
        else 0) (qfloor (cash.getD w 0 / price)) := by
    rw [zipWith_getD_lt _ _ _ w (by omega) (by omega), hmaskD]
  unfold vecBuyBlock
  constructor
  · rw [zipWith3_getD _ cash ch _ w (by omega) (by omega) (by omega), hcapD]
    split_ifs with h0 <;> simp [h0]
  · rw [zipWith3_getD _ qty ch _ w (by omega) (by omega) (by omega), hcapD]
    split_ifs with h0 <;> simp [h0]

theorem vecSellBlock_length (price : ℚ) (ch qtyPrev cash qty : List ℚ) (W : ℕ)
    (hch : ch.length = W) (hp : qtyPrev.length = W) (hc : cash.length = W)
    (hq : qty.length = W) :
    (vecSellBlock price ch qtyPrev cash qty).1.length = W ∧
    (vecSellBlock price ch qtyPrev cash qty).2.length = W := by
  unfold vecSellBlock
  constructor
  · rw [zipWith3_length_eq _ cash ch qtyPrev (by omega) (by omega)]; exact hc
  · simp [List.length_zipWith]; omega

theorem vecSellBlock_getD (price : ℚ) (ch qtyPrev cash qty : List ℚ) (W w : ℕ)
    (hch : ch.length = W) (hp : qtyPrev.length = W) (hc : cash.length = W)
    (hq : qty.length = W) (hw : w < W) :
    (vecSellBlock price ch qtyPrev cash qty).1.getD w 0 =
      (if ch.getD w 0 < 0 then cash.getD w 0 + qtyPrev.getD w 0 * price
       else cash.getD w 0) ∧
    (vecSellBlock price ch qtyPrev cash qty).2.getD w 0 =
      (if ch.getD w 0 < 0 then 0 else qty.getD w 0) := by
  unfold vecSellBlock
  constructor
  · rw [zipWith3_getD _ cash ch qtyPrev w (by omega) (by omega) (by omega)]
  · rw [zipWith_getD_lt _ qty ch w (by omega) (by omega)]

theorem vecStep_length (cfg : BTConfig) (W : ℕ) (price : ℚ)
    (ch cash qty : List ℚ) (hch : ch.length = W) (hc : cash.length = W)
    (hq : qty.length = W) :
    (vecStep cfg W price ch cash qty).1.length = W ∧
    (vecStep cfg W price ch cash qty).2.length = W := by
  have hbb := vecBuyBlock_length cfg W price ch cash qty hch hc hq
  unfold vecStep
  split_ifs with hg hb hs hs2
  · exact vecSellBlock_length price ch qty _ _ W hch hq hbb.1 hbb.2
  · exact hbb
  · exact vecSellBlock_length price ch qty _ _ W hch hq hc hq
  · exact ⟨hc, hq⟩
  · exact ⟨hc, hq⟩

theorem vecStep_getD (cfg : BTConfig) (W : ℕ) (price : ℚ)
    (ch cash qty : List ℚ) (w : ℕ) (hch : ch.length = W) (hc : cash.length = W)
    (hq : qty.length = W) (hw : w < W) :
    (vecStep cfg W price ch cash qty).1.getD w 0 =
      (stepColT cfg price (ch.getD w 0) (cash.getD w 0) (qty.getD w 0)).1 ∧
    (vecStep cfg W price ch cash qty).2.getD w 0 =
      (stepColT cfg price (ch.getD w 0) (cash.getD w 0) (qty.getD w 0)).2 := by
  have hbbL := vecBuyBlock_length cfg W price ch cash qty hch hc hq
  have hbbD := vecBuyBlock_getD cfg W price ch cash qty w hch hc hq hw
  unfold vecStep
  split_ifs with hg hb hs hs2
  · -- buys and sells both present
    have hsD := vecSellBlock_getD price ch qty _ _ W w hch hq hbbL.1 hbbL.2 hw
    rw [hsD.1, hsD.2, hbbD.1, hbbD.2]
    unfold stepColT
    rcases lt_trichotomy (ch.getD w 0) 0 with h0 | h0 | h0
    · have hnp : ¬ 0 < ch.getD w 0 := asymm h0
      simp only [if_pos h0, if_neg hnp]
      constructor <;> first | rfl | trivial
    · have hnp : ¬ 0 < ch.getD w 0 := by rw [h0]; exact lt_irrefl 0
      have hnn : ¬ ch.getD w 0 < 0 := by rw [h0]; exact lt_irrefl 0
      simp only [if_neg hnp, if_neg hnn]
      constructor <;> first | rfl | trivial
    · have hnn : ¬ ch.getD w 0 < 0 := asymm h0
      simp only [if_pos h0, if_neg hnn]
      constructor <;> first | rfl | trivial
  · -- buys only
    rw [hbbD.1, hbbD.2]
    have hns := any_neg_false_getD ch (by simpa using hs) w (by omega)
    unfold stepColT
    rcases lt_trichotomy (ch.getD w 0) 0 with h0 | h0 | h0
    · exact absurd h0 hns
    · have hnp : ¬ 0 < ch.getD w 0 := by rw [h0]; exact lt_irrefl 0
      simp only [if_neg hnp, if_neg hns]
      constructor <;> first | rfl | trivial
    · have hnn : ¬ ch.getD w 0 < 0 := asymm h0
      simp only [if_pos h0, if_neg hnn]
      constructor <;> first | rfl | trivial
  · -- sells only
    have hsD := vecSellBlock_getD price ch qty cash qty W w hch hq hc hq hw
    rw [hsD.1, hsD.2]
    have hnb := any_pos_false_getD ch (by simpa using hb) w (by omega)
    unfold stepColT
    rcases lt_trichotomy (ch.getD w 0) 0 with h0 | h0 | h0
    · simp only [if_pos h0, if_neg hnb]
      constructor <;> first | rfl | trivial
    · have hnn : ¬ ch.getD w 0 < 0 := by rw [h0]; exact lt_irrefl 0
      simp only [if_neg hnn, if_neg hnb]
      constructor <;> first | rfl | trivial
    · exact absurd h0 hnb
  · -- guard true but neither any-buy nor any-sell (impossible booleans)
    simp only [Bool.or_eq_true] at hg
    rcases hg with hg | hg
    · exact absurd hg (by simpa using hb)
    · exact absurd hg (by simpa using hs2)
  · -- all changes zero
    have hng : ¬ (ch.any fun c => decide (0 < c)) = true ∧
        ¬ (ch.any fun c => decide (c < 0)) = true := by
      simpa [not_or] using hg
    have hnb := any_pos_false_getD ch (Bool.eq_false_iff.mpr hng.1) w (by omega)
    have hns := any_neg_false_getD ch (Bool.eq_false_iff.mpr hng.2) w (by omega)
    unfold stepColT
    rcases lt_trichotomy (ch.getD w 0) 0 with h0 | h0 | h0
    · exact absurd h0 hns
    · simp only [if_neg hnb, if_neg hns]
      constructor <;> first | rfl | trivial
    · exact absurd h0 hnb

theorem vecStep_eq_stepRowT (cfg : BTConfig) (W : ℕ) (price : ℚ)
    (ch cash qty : List ℚ) (hch : ch.length = W) (hc : cash.length = W)
    (hq : qty.length = W) :
    vecStep cfg W price ch cash qty = stepRowT cfg price ch cash qty := by
  have hvL := vecStep_length cfg W price ch cash qty hch hc hq
  have hsL := stepRowT_length cfg price ch cash qty (by omega) (by omega)
  have ext1 : (vecStep cfg W price ch cash qty).1 =
      (stepRowT cfg price ch cash qty).1 := by
    apply List.ext_getElem (by omega)
    intro i h1 h2
    have hv := (vecStep_getD cfg W price ch cash qty i hch hc hq (by omega)).1
    have hs := (stepRowT_getD cfg price ch cash qty i (by omega) (by omega)
      (by omega)).1
    rw [List.getD_eq_getElem _ _ h1] at hv
    rw [List.getD_eq_getElem _ _ h2] at hs
    rw [hv, hs]
  have ext2 : (vecStep cfg W price ch cash qty).2 =
      (stepRowT cfg price ch cash qty).2 := by
    apply List.ext_getElem (by omega)
    intro i h1 h2
    have hv := (vecStep_getD cfg W price ch cash qty i hch hc hq (by omega)).2
    have hs := (stepRowT_getD cfg price ch cash qty i (by omega) (by omega)
      (by omega)).2
    rw [List.getD_eq_getElem _ _ h1] at hv
    rw [List.getD_eq_getElem _ _ h2] at hs
    rw [hv, hs]
  exact Prod.ext ext1 ext2

theorem vecScan_eq_scanStepsT (cfg : BTConfig) (W : ℕ) :
    ∀ (steps : List (ℚ × List ℚ)) (cash qty : List ℚ),
      (∀ s ∈ steps, s.2.length = W) → cash.length = W → qty.length = W →
      vecScan cfg W steps cash qty = scanStepsT cfg steps cash qty
  | [], cash, qty, _, _, _ => rfl
  | (price, ch) :: rest, cash, qty, hsteps, hc, hq => by
    have hch : ch.length = W := hsteps (price, ch) (List.mem_cons_self _ _)
    have hstep := vecStep_eq_stepRowT cfg W price ch cash qty hch hc hq
    have hlen := stepRowT_length cfg price ch cash qty (by omega) (by omega)
    have ih := vecScan_eq_scanStepsT cfg W rest
      (stepRowT cfg price ch cash qty).1 (stepRowT cfg price ch cash qty).2
      (fun s hs => hsteps s (List.mem_cons_of_mem _ hs)) (by omega) (by omega)
    simp only [vecScan, scanStepsT, hstep, ih]

/-- C4 (amended, part 1): for every recognized mode and rectangular
position matrix, the loop-based reference `run_backtest_python` and the
batched `run_multi_weight_vectorized` return identical portfolio-value,
cash and quantity matrices (in exact arithmetic). -/
theorem run_backtest_python_eq_vectorized (prices : List ℚ)
    (pos : List (List ℚ)) (cfg : BTConfig)
    (hmode : recognizedMode cfg.trade_mode)
    (hrect : rectangular (pos.headD []).length pos) :
    run_backtest_python prices pos cfg = run_multi_weight_vectorized prices pos cfg := by
  unfold run_backtest_python run_multi_weight_vectorized
  split_ifs with hshape
  · cases prices with
    | nil => rfl
    | cons p0 prest =>
      have hrectCh := positionChanges_rect (pos.headD []).length pos hrect
      have hsteps : ∀ s ∈ prest.zip (positionChanges (pos.headD []).length pos).tail,
          s.2.length = (pos.headD []).length := fun s hs =>
        hrectCh s.2 (List.mem_of_mem_tail (List.of_mem_zip hs).2)
      simp only []
      rw [scanSteps_recognized cfg hmode]
      rw [vecScan_eq_scanStepsT cfg (pos.headD []).length _ _ _ hsteps
        (by simp) (by simp)]
  · rfl

/-- Witness for C4 (amended) at the Scenario A data. -/
theorem run_backtest_python_eq_vectorized_witness :
    recognizedMode cfgScenarioA.trade_mode ∧
    rectangular (([[0], [1], [0]] : List (List ℚ)).headD []).length [[0], [1], [0]] ∧
    run_backtest_python [100, 110, 90] [[0], [1], [0]] cfgScenarioA =
      run_multi_weight_vectorized [100, 110, 90] [[0], [1], [0]] cfgScenarioA :=
  ⟨by decide, by decide,
    run_backtest_python_eq_vectorized [100, 110, 90] [[0], [1], [0]] cfgScenarioA
      (by decide) (by decide)⟩

/-- C4 counterexample: the simplified `run_backtest_vectorized` does not
floor the buy quantity (it buys the fractional `cash / price`), so on the
Scenario A data its cash, quantity and later portfolio values differ from
the loop-based reference in `cash_all` mode. -/
theorem run_backtest_vectorized_differs :
    run_backtest_vectorized [100, 110, 90] [[0], [1], [0]] 1000 "cash_all" ≠
      run_backtest_python [100, 110, 90] [[0], [1], [0]] cfgScenarioA := by
  have h1 : run_backtest_python [100, 110, 90] [[0], [1], [0]] cfgScenarioA =
      .ok ([[1000], [1000], [820]], [[1000], [10], [820]], [[0], [9], [0]]) := by
    norm_num [run_backtest_python, scanSteps, stepRow, stepCol, buyQty, qfloor,
      positionChanges, cfgScenarioA, List.replicate, List.zip, List.zipWith]
  have h2 : run_backtest_vectorized [100, 110, 90] [[0], [1], [0]] 1000 "cash_all" =
      .ok ([[1000], [1000], [9000/11]], [[1000], [0], [9000/11]],
           [[0], [100/11], [0]]) := by
    norm_num [run_backtest_vectorized, fracScan, fracStep, zipWith3,
      positionChanges, List.replicate, List.zip, List.zipWith]
  rw [h1, h2]
  intro h
  simp only [Except.ok.injEq, Prod.mk.injEq] at h
  have := h.1
  simp at this
  norm_num at this

/-! ### C10: the Sharpe ratio formula -/

/-- C10: for every portfolio-value matrix with at least 3 rows and every
in-range column `w`, the returns matrix has `T - 1` rows, and the recorded
Sharpe ratio equals `mean / (std_sample + 1e-8) * sqrt(annualization)` with
the sample standard deviation using divisor `n - 1` (`n = T - 1`); the
`1e-8` guard keeps the denominator strictly positive, so the result is a
well-defined finite real even for a zero-variance column. -/
theorem calculate_sharpe_ratio_spec (pv : List (List ℚ)) (A : ℚ) (w : ℕ)
    (hw : w < (pv.headD []).length) (hT : 3 ≤ pv.length) :
    (calculate_returns_python pv).length = pv.length - 1 ∧
    (0 : ℝ) < Real.sqrt
        (((((colOf w (calculate_returns_python pv)).map fun x =>
            (x - (colOf w (calculate_returns_python pv)).sum /
              (((calculate_returns_python pv).length : ℚ))) ^ 2).sum /
          (((calculate_returns_python pv).length : ℚ) - 1) : ℚ) : ℝ)) + 1 / 10 ^ 8 ∧
    (calculate_sharpe_ratio_python pv A).getD w 0 =
      ((((colOf w (calculate_returns_python pv)).sum /
          (((calculate_returns_python pv).length : ℚ)) : ℚ) : ℝ) /
        (Real.sqrt
          (((((colOf w (calculate_returns_python pv)).map fun x =>
              (x - (colOf w (calculate_returns_python pv)).sum /
                (((calculate_returns_python pv).length : ℚ))) ^ 2).sum /
            (((calculate_returns_python pv).length : ℚ) - 1) : ℚ) : ℝ)) + 1 / 10 ^ 8)) *
        Real.sqrt (A : ℝ) := by
  have hR : (calculate_returns_python pv).length = pv.length - 1 := by
    simp [calculate_returns_python, List.length_zipWith]
  have hcol : (colOf w (calculate_returns_python pv)).length =
      (calculate_returns_python pv).length := by
    simp [colOf]
  refine ⟨hR, ?_, ?_⟩
  · positivity
  · have hscores : (calculate_sharpe_ratio_python pv A).getD w 0 =
        sharpeOfColumn (colOf w (calculate_returns_python pv)) A := by
      unfold calculate_sharpe_ratio_python
      rw [List.getD_eq_getElem _ _ (by simpa using hw)]
      simp
    rw [hscores]
    unfold sharpeOfColumn
    rw [if_neg (by omega), hcol]
/-- Witness for C10 at Scenario D: the portfolio values
`[1000, 1100, 1210]` produce the zero-variance returns column
`[1/10, 1/10]`, and the Sharpe ratio is still the well-defined finite real
given by the formula, thanks to the `1e-8` guard. -/
theorem calculate_sharpe_ratio_spec_witness :
    (0 : ℕ) < (([[1000], [1100], [1210]] : List (List ℚ)).headD []).length ∧
    3 ≤ ([[1000], [1100], [1210]] : List (List ℚ)).length ∧
    ((calculate_returns_python [[1000], [1100], [1210]]).length =
      ([[1000], [1100], [1210]] : List (List ℚ)).length - 1 ∧
    (0 : ℝ) < Real.sqrt
        (((((colOf 0 (calculate_returns_python [[1000], [1100], [1210]])).map fun x =>
            (x - (colOf 0 (calculate_returns_python [[1000], [1100], [1210]])).sum /
              (((calculate_returns_python [[1000], [1100], [1210]]).length : ℚ))) ^ 2).sum /
          (((calculate_returns_python [[1000], [1100], [1210]]).length : ℚ) - 1) : ℚ) : ℝ)) +
        1 / 10 ^ 8 ∧
    (calculate_sharpe_ratio_python [[1000], [1100], [1210]] 252).getD 0 0 =
      ((((colOf 0 (calculate_returns_python [[1000], [1100], [1210]])).sum /
          (((calculate_returns_python [[1000], [1100], [1210]]).length : ℚ)) : ℚ) : ℝ) /
        (Real.sqrt
          (((((colOf 0 (calculate_returns_python [[1000], [1100], [1210]])).map fun x =>
              (x - (colOf 0 (calculate_returns_python [[1000], [1100], [1210]])).sum /
                (((calculate_returns_python [[1000], [1100], [1210]]).length : ℚ))) ^ 2).sum /
            (((calculate_returns_python [[1000], [1100], [1210]]).length : ℚ) - 1) : ℚ) : ℝ)) +
          1 / 10 ^ 8)) *
        Real.sqrt ((252 : ℚ) : ℝ)) :=
  ⟨by decide, by decide,
    calculate_sharpe_ratio_spec [[1000], [1100], [1210]] 252 0 (by decide) (by decide)⟩

/-! ### C5: column independence of the batch evaluator -/

theorem scanStepsT_rect (cfg : BTConfig) (W : ℕ) :
    ∀ (steps : List (ℚ × List ℚ)) (cash qty : List ℚ),
      (∀ s ∈ steps, s.2.length = W) → cash.length = W → qty.length = W →
      ∀ r ∈ scanStepsT cfg steps cash qty,
        r.1.length = W ∧ r.2.1.length = W ∧ r.2.2.length = W
  | [], _, _, _, _, _ => by simp [scanStepsT]
  | (price, ch) :: rest, cash, qty, hsteps, hc, hq => by
    have hch : ch.length = W := hsteps (price, ch) (List.mem_cons_self _ _)
    have hlen := stepRowT_length cfg price ch cash qty (by omega) (by omega)
    have hpvlen : (List.zipWith (fun c q => c + q * price)
        (stepRowT cfg price ch cash qty).1
        (stepRowT cfg price ch cash qty).2).length = W := by
      simp only [List.length_zipWith]
      omega
    intro r hr
    simp only [scanStepsT, List.mem_cons] at hr
    rcases hr with rfl | hr
    · exact ⟨hpvlen, hlen.1.trans hc, hlen.2.trans hc⟩
    · exact scanStepsT_rect cfg W rest _ _
        (fun s hs => hsteps s (List.mem_cons_of_mem _ hs)) (by omega) (by omega) r hr

theorem scanStepsT_proj (cfg : BTConfig) (W w : ℕ) (hw : w < W) :
    ∀ (steps : List (ℚ × List ℚ)) (cash qty : List ℚ),
      (∀ s ∈ steps, s.2.length = W) → cash.length = W → qty.length = W →
      scanStepsT cfg (steps.map fun s => (s.1, [s.2.getD w 0]))
          [cash.getD w 0] [qty.getD w 0] =
        (scanStepsT cfg steps cash qty).map
          (fun r => ([r.1.getD w 0], [r.2.1.getD w 0], [r.2.2.getD w 0]))
  | [], _, _, _, _, _ => rfl
  | (price, ch) :: rest, cash, qty, hsteps, hc, hq => by
    have hch : ch.length = W := hsteps (price, ch) (List.mem_cons_self _ _)
    have hlen := stepRowT_length cfg price ch cash qty (by omega) (by omega)
    have hD := stepRowT_getD cfg price ch cash qty w (by omega) (by omega) (by omega)
    have hsingle : stepRowT cfg price [ch.getD w 0] [cash.getD w 0] [qty.getD w 0] =
        ([(stepRowT cfg price ch cash qty).1.getD w 0],
         [(stepRowT cfg price ch cash qty).2.getD w 0]) := by
      rw [hD.1, hD.2]
      simp [stepRowT]
    have hpv : (List.zipWith (fun c q => c + q * price)
        (stepRowT cfg price ch cash qty).1 (stepRowT cfg price ch cash qty).2).getD w 0 =
        (stepRowT cfg price ch cash qty).1.getD w 0 +
        (stepRowT cfg price ch cash qty).2.getD w 0 * price :=
      zipWith_getD_lt _ _ _ w (by omega) (by omega)
    have ih := scanStepsT_proj cfg W w hw rest
      (stepRowT cfg price ch cash qty).1 (stepRowT cfg price ch cash qty).2
      (fun s hs => hsteps s (List.mem_cons_of_mem _ hs)) (by omega) (by omega)
    simp only [List.map_cons, scanStepsT, hsingle, ih, hpv]
    simp

theorem positionChanges_rows_proj (W w : ℕ) (hw : w < W) :
    ∀ (curs prevs : List (List ℚ)), rectangular W curs → rectangular W prevs →
      List.zipWith (fun cur prev => List.zipWith (fun c p => c - p) cur prev)
          (curs.map fun r => [r.getD w 0]) (prevs.map fun r => [r.getD w 0]) =
        (List.zipWith (fun cur prev => List.zipWith (fun c p => c - p) cur prev)
          curs prevs).map fun r => [r.getD w 0]
  | [], prevs, _, _ => by simp
  | cur :: curs, [], _, _ => by simp
  | cur :: curs, prev :: prevs, hcur, hprev => by
    have h1 : cur.length = W := hcur cur (List.mem_cons_self _ _)
    have h2 : prev.length = W := hprev prev (List.mem_cons_self _ _)
    have ih := positionChanges_rows_proj W w hw curs prevs
      (fun r hr => hcur r (List.mem_cons_of_mem _ hr))
      (fun r hr => hprev r (List.mem_cons_of_mem _ hr))
    simp only [List.map_cons, List.zipWith_cons_cons, ih]
    congr 1
    rw [zipWith_getD_lt _ _ _ w (by omega) (by omega)]
    simp

theorem positionChanges_proj (W w : ℕ) (hw : w < W) (pos : List (List ℚ))
    (hrect : rectangular W pos) :
    positionChanges 1 (pos.map fun r => [r.getD w 0]) =
      (positionChanges W pos).map fun r => [r.getD w 0] := by
  unfold positionChanges
  have hrep : (List.replicate 1 (0 : ℚ) :: pos.map fun r => [r.getD w 0]) =
      (List.replicate W (0 : ℚ) :: pos).map fun r => [r.getD w 0] := by
    simp only [List.map_cons]
    congr 1
    simp [replicate_getD, hw, List.replicate]
  rw [hrep]
  exact positionChanges_rows_proj W w hw pos (List.replicate W 0 :: pos) hrect
    (by
      intro r hr
      rcases List.mem_cons.1 hr with rfl | hr
      · simp
      · exact hrect r hr)

theorem run_ok_rect (prices : List ℚ) (pos : List (List ℚ)) (cfg : BTConfig)
    (pv cm qm : List (List ℚ)) (hmode : recognizedMode cfg.trade_mode)
    (hrect : rectangular (pos.headD []).length pos)
    (h : run_backtest_python prices pos cfg = .ok (pv, cm, qm)) :
    pv ≠ [] ∧ (pv.headD []).length = (pos.headD []).length ∧
      rectangular (pos.headD []).length pv := by
  unfold run_backtest_python at h
  split at h
  case isFalse => exact absurd h (by simp)
  case isTrue hshape =>
    cases prices with
    | nil => exact absurd h (by simp)
    | cons p0 prest =>
      simp only [scanSteps_recognized cfg hmode, Except.ok.injEq,
        Prod.mk.injEq] at h
      obtain ⟨hpv, hcm, hqm⟩ := h
      have hrectCh := positionChanges_rect (pos.headD []).length pos hrect
      have hsteps : ∀ s ∈ prest.zip (positionChanges (pos.headD []).length pos).tail,
          s.2.length = (pos.headD []).length := fun s hs =>
        hrectCh s.2 (List.mem_of_mem_tail (List.of_mem_zip hs).2)
      have hrows := scanStepsT_rect cfg (pos.headD []).length
        (prest.zip (positionChanges (pos.headD []).length pos).tail)
        (List.replicate (pos.headD []).length cfg.initial_cash)
        (List.replicate (pos.headD []).length 0)
        hsteps (by simp) (by simp)
      refine ⟨by rw [← hpv]; simp, by rw [← hpv]; simp, ?_⟩
      intro r hr
      rw [← hpv] at hr
      rcases List.mem_cons.1 hr with rfl | hr
      · simp
      · obtain ⟨row, hrow, rfl⟩ := List.mem_map.1 hr
        exact (hrows row hrow).1

theorem run_proj (prices : List ℚ) (pos : List (List ℚ)) (cfg : BTConfig) (w : ℕ)
    (hmode : recognizedMode cfg.trade_mode)
    (hrect : rectangular (pos.headD []).length pos)
    (hw : w < (pos.headD []).length) :
    run_backtest_python prices (pos.map fun r => [r.getD w 0]) cfg =
      (run_backtest_python prices pos cfg).map
        (fun t => (t.1.map fun r => [r.getD w 0],
                   t.2.1.map fun r => [r.getD w 0],
                   t.2.2.map fun r => [r.getD w 0])) := by
  unfold run_backtest_python
  by_cases hshape : pos.length = prices.length
  · rw [if_pos (by simpa using hshape), if_pos hshape]
    cases prices with
    | nil => rfl
    | cons p0 prest =>
      have hpos : pos ≠ [] := by
        intro h
        rw [h] at hshape
        simp at hshape
      obtain ⟨r0, pos', rfl⟩ : ∃ r0 pos', pos = r0 :: pos' := by
        cases pos with
        | nil => exact absurd rfl hpos
        | cons a b => exact ⟨a, b, rfl⟩
      have hW : (((r0 :: pos').map fun r => [r.getD w 0]).headD []).length = 1 := by
        simp
      have hwr : w < ((r0 :: pos').headD []).length := hw
      have hchg := positionChanges_proj ((r0 :: pos').headD []).length w hwr
        (r0 :: pos') hrect
      simp only [scanSteps_recognized cfg hmode, Except.map]
      rw [hW, hchg]
      have htail : ((positionChanges ((r0 :: pos').headD []).length
          (r0 :: pos')).map fun r => [r.getD w 0]).tail =
          (positionChanges ((r0 :: pos').headD []).length (r0 :: pos')).tail.map
            fun r => [r.getD w 0] := by
        cases positionChanges ((r0 :: pos').headD []).length (r0 :: pos') <;> simp
      rw [htail]
      have hzip : prest.zip ((positionChanges ((r0 :: pos').headD []).length
          (r0 :: pos')).tail.map fun r => [r.getD w 0]) =
          (prest.zip (positionChanges ((r0 :: pos').headD []).length
            (r0 :: pos')).tail).map fun s => (s.1, [s.2.getD w 0]) := by
        rw [List.zip_map_right]
        rfl
      rw [hzip]
      have hic : (List.replicate 1 cfg.initial_cash) =
          [(List.replicate ((r0 :: pos').headD []).length cfg.initial_cash).getD w 0] := by
        rw [replicate_getD, if_pos hwr]
        rfl
      have hz : (List.replicate 1 (0 : ℚ)) =
          [(List.replicate ((r0 :: pos').headD []).length (0 : ℚ)).getD w 0] := by
        rw [replicate_getD, if_pos hwr]
        rfl
      rw [hic, hz]
      have hrectCh := positionChanges_rect ((r0 :: pos').headD []).length
        (r0 :: pos') hrect
      have hsteps : ∀ s ∈ prest.zip (positionChanges
          ((r0 :: pos').headD []).length (r0 :: pos')).tail,
          s.2.length = ((r0 :: pos').headD []).length := fun s hs =>
        hrectCh s.2 (List.mem_of_mem_tail (List.of_mem_zip hs).2)
      rw [scanStepsT_proj cfg ((r0 :: pos').headD []).length w hwr _ _ _
        hsteps (by simp) (by simp)]
      simp [List.map_map, replicate_getD, hwr, Function.comp, List.replicate]
  · rw [if_neg (by simpa using hshape), if_neg hshape]
    rfl

theorem matMul_row_length (S B : List (List ℚ)) :
    ∀ row ∈ matMul S B, row.length = (B.headD []).length := by
  unfold matMul
  intro row hr
  obtain ⟨r, _, rfl⟩ := List.mem_map.1 hr
  simp

theorem matMul_proj (signal WB : List (List ℚ)) (w : ℕ) (hne : WB ≠ [])
    (hw : w < (WB.headD []).length) :
    matMul signal (WB.map fun r => [r.getD w 0]) =
      (matMul signal WB).map fun r => [r.getD w 0] := by
  unfold matMul
  rw [List.map_map]
  refine List.map_congr_left fun row _ => ?_
  have hhead : ((WB.map fun r => [r.getD w 0]).headD []).length = 1 := by
    cases WB with
    | nil => exact absurd rfl hne
    | cons b bs => simp
  rw [hhead]
  have hcol0 : colOf 0 (WB.map fun r => [r.getD w 0]) = colOf w WB := by
    simp [colOf, List.map_map]
  have hgetD : ((List.range (WB.headD []).length).map
      (fun j => npDot row (colOf j WB))).getD w 0 = npDot row (colOf w WB) := by
    rw [List.getD_eq_getElem _ _ (by simpa using hw), List.getElem_map,
      List.getElem_range]
  have hr1 : List.range 1 = [0] := rfl
  rw [hr1]
  simp only [List.map_cons, List.map_nil, hcol0, Function.comp_apply]
  rw [hgetD]

theorem process_ok_shape (signal WB : List (List ℚ)) (th : ℚ)
    (combined ls pos : List (List ℚ)) (hsne : signal ≠ [])
    (h : process_signals_python signal WB th = .ok (combined, ls, pos)) :
    pos ≠ [] ∧ (pos.headD []).length = (WB.headD []).length ∧
      rectangular (WB.headD []).length pos ∧ pos.length = signal.length := by
  unfold process_signals_python at h
  split at h
  case isFalse => exact absurd h (by simp)
  case isTrue hdim =>
    simp only [Except.ok.injEq, Prod.mk.injEq] at h
    obtain ⟨hc, hl, hp⟩ := h
    subst hc hl hp
    have hmmne : matMul signal WB ≠ [] := by
      unfold matMul
      cases signal with
      | nil => exact absurd rfl hsne
      | cons s ss => simp
    have hlsne : (matMul signal WB).map
        (fun row => row.map (thresholdEntry th)) ≠ [] := by
      simpa using hmmne
    rw [if_neg (by simpa using hlsne)]
    refine ⟨by simp, by simp, ?_, ?_⟩
    · intro r hr
      rcases List.mem_cons.1 hr with rfl | hr
      · simp
      · have hr' := List.dropLast_subset _ hr
        obtain ⟨row, hrow, rfl⟩ := List.mem_map.1 hr'
        have := matMul_row_length signal WB row hrow
        simp [this]
    · have h1 : (matMul signal WB).length = signal.length := by
        unfold matMul; simp
      have h2 : ((matMul signal WB).map
          (fun row => row.map (thresholdEntry th))).length = signal.length := by
        simp [h1]
      simp only [List.length_cons, List.length_dropLast, h2]
      have : 1 ≤ signal.length := by
        cases signal with
        | nil => exact absurd rfl hsne
        | cons s ss => simp
      omega

theorem process_proj (signal WB : List (List ℚ)) (th : ℚ) (w : ℕ)
    (hne : WB ≠ []) (hw : w < (WB.headD []).length) :
    process_signals_python signal (WB.map fun r => [r.getD w 0]) th =
      (process_signals_python signal WB th).map
        (fun t => (t.1.map fun r => [r.getD w 0],
                   t.2.1.map fun r => [r.getD w 0],
                   t.2.2.map fun r => [r.getD w 0])) := by
  unfold process_signals_python
  have hlen : (WB.map fun r => [r.getD w 0]).length = WB.length := by simp
  by_cases hdim : (signal.headD []).length = WB.length
  · rw [if_pos (by rw [hlen]; exact hdim), if_pos hdim]
    simp only [Except.map]
    rw [matMul_proj signal WB w hne hw]
    have hls : ((matMul signal WB).map fun r => [r.getD w 0]).map
        (fun row => row.map (thresholdEntry th)) =
        ((matMul signal WB).map fun row => row.map (thresholdEntry th)).map
          (fun r => [r.getD w 0]) := by
      rw [List.map_map, List.map_map]
      refine List.map_congr_left fun row hrow => ?_
      have hrlen := matMul_row_length signal WB row hrow
      have hmg : (row.map (thresholdEntry th)).getD w 0 =
          thresholdEntry th (row.getD w 0) :=
        map_getD_lt _ row w (by omega)
      simp only [Function.comp]
      rw [hmg]
      simp
    rw [hls]
    have hW1 : ((WB.map fun r => [r.getD w 0]).headD []).length = 1 := by
      cases WB with
      | nil => exact absurd rfl hne
      | cons b bs => simp
    rw [hW1]
    cases hL : (matMul signal WB).map (fun row => row.map (thresholdEntry th)) with
    | nil => simp
    | cons l0 ls' =>
      rw [if_neg (by simp), if_neg (by simp)]
      have h3 : (List.replicate 1 (0 : ℚ) ::
          ((l0 :: ls').map fun r => [r.getD w 0]).dropLast) =
          (List.replicate (WB.headD []).length (0 : ℚ) ::
            (l0 :: ls').dropLast).map fun r => [r.getD w 0] := by
        conv_rhs => rw [List.map_cons]
        congr 1
        · rw [replicate_getD, if_pos hw]
          rfl
        · exact (List.map_dropLast _ _).symm
      rw [h3]
  · rw [if_neg (by rw [hlen]; exact hdim), if_neg hdim]
    rfl

theorem rows_zipWith_proj (f : ℚ → ℚ → ℚ) (W w : ℕ) (hw : w < W) :
    ∀ (curs prevs : List (List ℚ)), rectangular W curs → rectangular W prevs →
      List.zipWith (fun cur prev => List.zipWith f cur prev)
          (curs.map fun r => [r.getD w 0]) (prevs.map fun r => [r.getD w 0]) =
        (List.zipWith (fun cur prev => List.zipWith f cur prev) curs prevs).map
          fun r => [r.getD w 0]
  | [], prevs, _, _ => by simp
  | cur :: curs, [], _, _ => by simp
  | cur :: curs, prev :: prevs, hcur, hprev => by
    have h1 : cur.length = W := hcur cur (List.mem_cons_self _ _)
    have h2 : prev.length = W := hprev prev (List.mem_cons_self _ _)
    have ih := rows_zipWith_proj f W w hw curs prevs
      (fun r hr => hcur r (List.mem_cons_of_mem _ hr))
      (fun r hr => hprev r (List.mem_cons_of_mem _ hr))
    simp only [List.map_cons, List.zipWith_cons_cons, ih]
    congr 1
    rw [zipWith_getD_lt _ _ _ w (by omega) (by omega)]
    simp

theorem calculate_returns_proj (pv : List (List ℚ)) (w : ℕ)
    (hw : w < (pv.headD []).length)
    (hrect : rectangular (pv.headD []).length pv) :
    calculate_returns_python (pv.map fun r => [r.getD w 0]) =
      (calculate_returns_python pv).map fun r => [r.getD w 0] := by
  unfold calculate_returns_python
  rw [(List.map_tail _ pv).symm]
  exact rows_zipWith_proj _ (pv.headD []).length w hw pv.tail pv
    (fun r hr => hrect r (List.mem_of_mem_tail hr)) hrect

theorem sharpe_proj (pv : List (List ℚ)) (A : ℚ) (w : ℕ) (hne : pv ≠ [])
    (hw : w < (pv.headD []).length)
    (hrect : rectangular (pv.headD []).length pv) :
    calculate_sharpe_ratio_python (pv.map fun r => [r.getD w 0]) A =
      [(calculate_sharpe_ratio_python pv A).getD w 0] := by
  unfold calculate_sharpe_ratio_python
  have hW1 : ((pv.map fun r => [r.getD w 0]).headD []).length = 1 := by
    cases pv with
    | nil => exact absurd rfl hne
    | cons b bs => simp
  rw [hW1, calculate_returns_proj pv w hw hrect]
  have hcol0 : colOf 0 ((calculate_returns_python pv).map fun r => [r.getD w 0]) =
      colOf w (calculate_returns_python pv) := by
    simp [colOf, List.map_map]
  have hgetD : ((List.range (pv.headD []).length).map
      (fun j => sharpeOfColumn (colOf j (calculate_returns_python pv)) A)).getD w 0 =
      sharpeOfColumn (colOf w (calculate_returns_python pv)) A := by
    rw [List.getD_eq_getElem _ _ (by simpa using hw), List.getElem_map,
      List.getElem_range]
  have hr1 : List.range 1 = [0] := rfl
  rw [hr1]
  simp only [List.map_cons, List.map_nil, hcol0]
  rw [hgetD]

/-- C5 (amended): for every recognized mode, nonempty weight batch and
signal matrix, and every in-range column `i`, evaluating column `i` alone
through the single-weight wrapper equals entry `i` of evaluating the whole
batch — provided the batch runs with the engine defaults
`max_allocation_pct = 1/2` and `fixed_cash_amount = 100000`, because the
wrapper forwards only `threshold`, `initial_cash` and `trade_mode`. -/
theorem evaluate_single_eq_batch_entry (WB signal_matrix : List (List ℚ))
    (prices : List ℚ) (threshold initial_cash : ℚ) (trade_mode : String) (i : ℕ)
    (hmode : recognizedMode trade_mode)
    (hne : WB ≠ []) (hi : i < (WB.headD []).length)
    (hsne : signal_matrix ≠ []) :
    evaluate_single_weight_python (WB.map fun r => r.getD i 0) signal_matrix
        prices threshold initial_cash trade_mode =
      (evaluate_weights_batch_python WB signal_matrix prices threshold
        initial_cash trade_mode (1 / 2) 100000).map (fun s => s.getD i 0) := by
  unfold evaluate_single_weight_python evaluate_weights_batch_python
  have hbatch : ((WB.map fun r => r.getD i 0).map fun x => [x]) =
      WB.map fun r => [r.getD i 0] := by
    rw [List.map_map]
    rfl
  rw [hbatch]
  rw [process_proj signal_matrix WB threshold i hne hi]
  cases hp : process_signals_python signal_matrix WB threshold with
  | error e => simp [Except.map]
  | ok t =>
    obtain ⟨combined, ls, pos⟩ := t
    simp only [Except.map]
    obtain ⟨hpne, hposW, hposrect, hposlen⟩ :=
      process_ok_shape signal_matrix WB threshold combined ls pos hsne hp
    have hrect' : rectangular (pos.headD []).length pos := by
      rw [hposW]; exact hposrect
    have hi' : i < (pos.headD []).length := by
      rw [hposW]; exact hi
    have hmode' : recognizedMode (BTConfig.mk initial_cash trade_mode (1 / 2)
        100000 100).trade_mode := hmode
    rw [run_proj prices pos _ i hmode' hrect' hi']
    cases hr : run_backtest_python prices pos
        (BTConfig.mk initial_cash trade_mode (1 / 2) 100000 100) with
    | error e => simp [Except.map]
    | ok t2 =>
      obtain ⟨pv, cm, qm⟩ := t2
      simp only [Except.map]
      obtain ⟨hpvne, hpvW, hpvrect⟩ :=
        run_ok_rect prices pos _ pv cm qm hmode' hrect' hr
      have hipv : i < (pv.headD []).length := by
        rw [hpvW]; exact hi'
      have hpvrect' : rectangular (pv.headD []).length pv := by
        rw [hpvW]; exact hpvrect
      rw [sharpe_proj pv 252 i hpvne hipv hpvrect']
      simp

/-- Witness for C5 (amended) at a concrete two-step `cash_all`
evaluation. -/
theorem evaluate_single_eq_batch_entry_witness :
    recognizedMode "cash_all" ∧ ([[1]] : List (List ℚ)) ≠ [] ∧
    (0 : ℕ) < (([[1]] : List (List ℚ)).headD []).length ∧
    ([[1], [0]] : List (List ℚ)) ≠ [] ∧
    evaluate_single_weight_python (([[1]] : List (List ℚ)).map fun r => r.getD 0 0)
        [[1], [0]] [100, 110] (1 / 2) 1000 "cash_all" =
      (evaluate_weights_batch_python [[1]] [[1], [0]] [100, 110] (1 / 2) 1000
        "cash_all" (1 / 2) 100000).map (fun s => s.getD 0 0) :=
  ⟨by decide, by decide, by decide, by decide,
    evaluate_single_eq_batch_entry [[1]] [[1], [0]] [100, 110] (1 / 2) 1000
      "cash_all" 0 (by decide) (by decide) (by decide) (by decide)⟩

/-- C5 counterexample: with a non-default `max_allocation_pct` the claim
fails, because `evaluate_single_weight_python` cannot receive it and
silently evaluates with the default `0.5`: here the batch (with
`max_allocation_pct = 1/1000`) never trades and scores `0`, while the
single-weight evaluation of the same column trades and scores a strictly
positive Sharpe ratio. -/
theorem evaluate_single_differs_from_batch_entry :
    evaluate_single_weight_python [1] [[1], [1], [1]] [100, 110, 121] (1 / 2)
        1000 "portfolio_pct" ≠
      (evaluate_weights_batch_python [[1]] [[1], [1], [1]] [100, 110, 121]
        (1 / 2) 1000 "portfolio_pct" (1 / 1000) 100000).map
        (fun s => s.getD 0 0) := by
  have hproc : process_signals_python [[1], [1], [1]] [[1]] (1 / 2) =
      .ok ([[1], [1], [1]], [[1], [1], [1]], [[0], [1], [1]]) := by
    norm_num [process_signals_python, matMul, npDot, colOf, thresholdEntry,
      List.range_succ]
  have hne1 : ¬ ("portfolio_pct" = "cash_all") := by decide
  have hrun1 : run_backtest_python [100, 110, 121] [[0], [1], [1]]
      (BTConfig.mk 1000 "portfolio_pct" (1 / 2) 100000 100) =
      .ok ([[1000], [1000], [1044]], [[1000], [560], [560]], [[0], [4], [4]]) := by
    norm_num [run_backtest_python, scanSteps, stepRow, stepCol, buyQty, qfloor,
      positionChanges, List.replicate, List.zip, List.zipWith, hne1]
  have hrun2 : run_backtest_python [100, 110, 121] [[0], [1], [1]]
      (BTConfig.mk 1000 "portfolio_pct" (1 / 1000) 100000 100) =
      .ok ([[1000], [1000], [1000]], [[1000], [1000], [1000]],
        [[0], [0], [0]]) := by
    norm_num [run_backtest_python, scanSteps, stepRow, stepCol, buyQty, qfloor,
      positionChanges, List.replicate, List.zip, List.zipWith, hne1]
  have hL : evaluate_single_weight_python [1] [[1], [1], [1]] [100, 110, 121]
      (1 / 2) 1000 "portfolio_pct" =
      .ok ((calculate_sharpe_ratio_python [[1000], [1000], [1044]] 252).getD 0 0) := by
    unfold evaluate_single_weight_python evaluate_weights_batch_python
    have hb : (([1] : List ℚ).map fun x => [x]) = [[1]] := rfl
    rw [hb, hproc]
    simp only []
    rw [hrun1]
  have hR : (evaluate_weights_batch_python [[1]] [[1], [1], [1]] [100, 110, 121]
      (1 / 2) 1000 "portfolio_pct" (1 / 1000) 100000).map (fun s => s.getD 0 0) =
      .ok ((calculate_sharpe_ratio_python [[1000], [1000], [1000]] 252).getD 0 0) := by
    unfold evaluate_weights_batch_python
    rw [hproc]
    simp only []
    rw [hrun2]
    simp [Except.map]
  have hscore1 : (calculate_sharpe_ratio_python [[1000], [1000], [1044]] 252).getD 0 0 =
      ((11 / 500 : ℚ) : ℝ) /
        (Real.sqrt ((121 / 125000 : ℚ) : ℝ) + 1 / 10 ^ 8) *
        Real.sqrt ((252 : ℚ) : ℝ) := by
    norm_num [calculate_sharpe_ratio_python, calculate_returns_python, colOf,
      sharpeOfColumn, List.range_succ]
  have hscore2 : (calculate_sharpe_ratio_python [[1000], [1000], [1000]] 252).getD 0 0 =
      0 := by
    norm_num [calculate_sharpe_ratio_python, calculate_returns_python, colOf,
      sharpeOfColumn, List.range_succ]
  rw [hL, hR, hscore1, hscore2]
  intro h
  simp only [Except.ok.injEq] at h
  have hpos : (0 : ℝ) <
      ((11 / 500 : ℚ) : ℝ) /
        (Real.sqrt ((121 / 125000 : ℚ) : ℝ) + 1 / 10 ^ 8) *
        Real.sqrt ((252 : ℚ) : ℝ) := by
    have h1 : (0 : ℝ) < ((11 / 500 : ℚ) : ℝ) := by norm_num
    have h2 : (0 : ℝ) < Real.sqrt ((121 / 125000 : ℚ) : ℝ) + 1 / 10 ^ 8 := by
      have := Real.sqrt_nonneg (((121 / 125000 : ℚ) : ℝ))
      positivity
    have h3 : (0 : ℝ) < Real.sqrt ((252 : ℚ) : ℝ) := by
      apply Real.sqrt_pos.mpr
      norm_num
    positivity
  rw [h] at hpos
  exact lt_irrefl 0 hpos

end Backtest
